import Mathlib

/-!
# Verification of the entromatica core (state identity, cache, rules)

Shallow embedding of `src/state.rs`, `src/cache.rs` and `src/rules.rs`.

Machine integers (`u64`) are modelled as `Nat` reduced modulo `2 ^ 64`
where overflow matters.  `f64` scalars (`Probability`, `ProbabilityWeight`,
`Amount`) are modelled as `ℚ` (for stored values and comparisons) resp. by
their 64-bit pattern (where only bit-stable hashing is relevant); real-valued
derived quantities (entropy) live in `ℝ`.
`hashbrown::HashMap` containers are modelled as association lists in the
map's iteration order; keys of a well-formed map are `Nodup`.
-/

namespace Entromatica

/-! ## SipHash-1-3, the algorithm behind `std::collections::hash_map::DefaultHasher`

`DefaultHasher::new()` is `SipHasher13::new_with_keys(0, 0)`.  `State`'s
`Hash` impl (state.rs lines 107-115) feeds every
(entity-name, resource-name, amount) triple into this hasher in the map's
iteration order, and `StateHash::from_state` (state.rs lines 190-195)
returns the hasher's `finish()` value. -/

/-- 64-bit wrap-around addition. -/
def addw (a b : Nat) : Nat := (a + b) % (2 ^ 64)

/-- 64-bit left rotation (`u64::rotate_left`); callers use `0 < n < 64`. -/
def rotl64 (x n : Nat) : Nat := ((x <<< n) % (2 ^ 64)) ||| (x >>> (64 - n))

/-- The four 64-bit words of the SipHash internal state. -/
structure SipState where
  v0 : Nat
  v1 : Nat
  v2 : Nat
  v3 : Nat
deriving DecidableEq

/-- One SipHash round (`compress!` in the Rust standard library). -/
def sipround (s : SipState) : SipState :=
  let v0 := addw s.v0 s.v1
  let v1 := rotl64 s.v1 13
  let v1 := v1 ^^^ v0
  let v0 := rotl64 v0 32
  let v2 := addw s.v2 s.v3
  let v3 := rotl64 s.v3 16
  let v3 := v3 ^^^ v2
  let v0 := addw v0 v3
  let v3 := rotl64 v3 21
  let v3 := v3 ^^^ v0
  let v2 := addw v2 v1
  let v1 := rotl64 v1 17
  let v1 := v1 ^^^ v2
  let v2 := rotl64 v2 32
  ⟨v0, v1, v2, v3⟩

/-- Absorb one 8-byte message word: `v3 ^= m`, one round (SipHash-1-3 has
one compression round), `v0 ^= m`. -/
def sipCompress (s : SipState) (m : Nat) : SipState :=
  let s1 : SipState := { s with v3 := s.v3 ^^^ m }
  let s2 := sipround s1
  { s2 with v0 := s2.v0 ^^^ m }

/-- Little-endian value of a byte list (first byte is least significant). -/
def leVal (bs : List Nat) : Nat := bs.foldr (fun b acc => b + 256 * acc) 0

/-- Process the byte stream: full 8-byte words first, then the final word
`((len & 0xff) << 56) | tail` followed by `v2 ^= 0xff` and the three
SipHash-1-3 finalization rounds (`SipHasher13::finish`). -/
def sipRun (s : SipState) (bs : List Nat) (len : Nat) : SipState :=
  match bs with
  | b0 :: b1 :: b2 :: b3 :: b4 :: b5 :: b6 :: b7 :: rest =>
      sipRun (sipCompress s (leVal [b0, b1, b2, b3, b4, b5, b6, b7])) rest len
  | rest =>
      let b := ((len % 256) <<< 56) ||| leVal rest
      let s1 := sipCompress s b
      let s2 : SipState := { s1 with v2 := s1.v2 ^^^ 0xff }
      sipround (sipround (sipround s2))

/-- `DefaultHasher` over a byte stream: SipHash-1-3 with keys (0, 0);
the initial words are the SipHash constants XORed with the zero keys. -/
def siphash13 (bs : List Nat) : Nat :=
  let s0 : SipState :=
    ⟨0x736f6d6570736575, 0x646f72616e646f6d, 0x6c7967656e657261, 0x7465646279746573⟩
  let s := sipRun s0 bs bs.length
  ((s.v0 ^^^ s.v1) ^^^ s.v2) ^^^ s.v3

/-! ## Entity / State (state.rs) -/

/-- A name (`EntityName`, `ResourceName`: newtypes over `String`),
represented by the UTF-8 bytes the `Hash` impl feeds to the hasher.
All examples below use ASCII names. -/
abbrev NameBytes := List Nat

abbrev EntityName := NameBytes

abbrev ResourceName := NameBytes

/-- `Amount` is a newtype over `f64` (units.rs, not under src/).
Modelled from the spec: floating-point values are hashed by their bit
pattern, so an amount is represented here by its 64-bit pattern. -/
abbrev Amount := Nat

/-- `Entity { resources: HashMap<ResourceName, Amount> }`, in the map's
iteration order. -/
structure Entity where
  resources : List (ResourceName × Amount)
deriving DecidableEq

/-- `State { entities: HashMap<EntityName, Entity> }`, in the map's
iteration order.  Two `State`s that are equal as unordered mappings may
iterate in different orders (hashbrown iteration order depends on the
map's seed and insertion history). -/
structure State where
  entities : List (EntityName × Entity)
deriving DecidableEq

/-- Rust `Hash for str`: write the bytes, then the terminator byte 0xff. -/
def strHashBytes (s : NameBytes) : List Nat := s ++ [0xff]

/-- Rust `Hasher::write_u64`: eight little-endian bytes. -/
def le64Bytes (x : Nat) : List Nat :=
  [x % 256, (x >>> 8) % 256, (x >>> 16) % 256, (x >>> 24) % 256,
   (x >>> 32) % 256, (x >>> 40) % 256, (x >>> 48) % 256, (x >>> 56) % 256]

/-- Byte stream of `(name.clone(), resource_name.clone(), *amount).hash(state)`:
the derived tuple `Hash` hashes the three components in order. -/
def tripleHashBytes (n : EntityName) (r : ResourceName) (a : Amount) : List Nat :=
  strHashBytes n ++ strHashBytes r ++ le64Bytes a

/-- `impl Hash for State` (state.rs lines 107-115): for each entity in
iteration order, for each of its resources in iteration order, hash the
(entity-name, resource-name, amount) triple into the hasher;
this is the byte stream the hasher consumes. -/
def State.hashBytes (s : State) : List Nat :=
  (s.entities.map (fun ne =>
    (ne.2.resources.map (fun ra => tripleHashBytes ne.1 ra.1 ra.2)).flatten)).flatten

/-- `StateHash::from_state` (state.rs lines 190-195): run `DefaultHasher`
over the state and return `finish()`. -/
def StateHash.from_state (s : State) : Nat := siphash13 s.hashBytes

/-- `impl PartialEq for State` (state.rs lines 117-127): hash both sides
with a fresh `DefaultHasher` and compare the two `finish()` values. -/
def State.beq (a b : State) : Bool :=
  StateHash.from_state a == StateHash.from_state b

/-- The 64-bit fingerprint type `StateHash(u64)`. -/
abbrev StateHashT := Nat

/-! ## PossibleStates (state.rs) -/

/-- `AlreadyExistsError::new(key, value)` (error.rs, not under src/);
backtrace context omitted. -/
structure AlreadyExistsErr where
  key : StateHashT
  value : State
deriving DecidableEq

/-- `PossibleStates(HashMap<StateHash, State>)`, in iteration order. -/
abbrev PossibleStates := List (StateHashT × State)

/-- `PossibleStates::state`: look the hash up in the pool. -/
def PossibleStates.state (ps : PossibleStates) (h : StateHashT) : Option State :=
  ps.lookup h

/-- `PossibleStates::append_state` (state.rs lines 219-229): error with
`AlreadyExistsError(hash, state)` when the hash is already present,
insert the pair otherwise. -/
def PossibleStates.append_state (ps : PossibleStates) (h : StateHashT) (s : State) :
    Except AlreadyExistsErr PossibleStates :=
  if (ps.state h).isSome then .error ⟨h, s⟩
  else .ok (ps ++ [(h, s)])

/-! ## ReachableStates (state.rs) -/

/-- `Probability` is a newtype over `f64` (units.rs, not under src/).
Modelled from the spec: a probability is a real in [0, 1]; represented
as a rational. -/
abbrev Probability := ℚ

/-- `OutOfRangeError::new(value, min, max)` (error.rs, not under src/);
fields per the spec's error taxonomy `OutOfRange(value, min, max)`. -/
structure OutOfRangeErr where
  value : ℚ
  lo : ℚ
  hi : ℚ
deriving DecidableEq

/-- `ReachableStates(HashMap<StateHash, Probability>)`, in iteration order. -/
abbrev ReachableStates := List (StateHashT × Probability)

/-- `ReachableStates::append_state` (state.rs lines 288-309): accumulate
into an existing entry, erroring when the accumulated mass would exceed 1
(`*probability + state_probability > Probability::from(1.)`); insert a
fresh entry otherwise. -/
def ReachableStates.append_state (rs : ReachableStates) (h : StateHashT) (p : Probability) :
    Except OutOfRangeErr ReachableStates :=
  match rs.lookup h with
  | some q =>
      if 1 < q + p then .error ⟨q + p, 0, 1⟩
      else .ok (rs.map (fun e => if e.1 = h then (e.1, e.2 + p) else e))
  | none => .ok (rs ++ [(h, p)])

/-- `ReachableStates::entropy` (state.rs lines 354-368): sum over all
entries of `p * -(p.log2())` when `p > 0`, else 0.  `f64::log2` is
modelled as the real base-2 logarithm. -/
noncomputable def ReachableStates.entropy (rs : ReachableStates) : ℝ :=
  (rs.map (fun e =>
    if (0 : ℚ) < e.2 then (e.2 : ℝ) * -(Real.logb 2 (e.2 : ℝ)) else 0)).sum

/-! ## RuleCache and Cache (cache.rs) -/

/-- `RuleName(String)` (rules.rs). -/
abbrev RuleName := String

/-- `RuleApplies(bool)` (rules.rs). -/
abbrev RuleApplies := Bool

/-- `RuleCache` (cache.rs lines 14-18): per-rule condition and action
memos, each a hash map keyed by the base state's fingerprint. -/
structure RuleCache where
  condition : List (StateHashT × RuleApplies)
  actions : List (StateHashT × StateHashT)
deriving DecidableEq

/-- `RuleCacheError` (cache.rs lines 107-135); backtrace contexts omitted. -/
inductive RuleCacheError where
  | conditionAlreadyExists (base_state_hash : StateHashT) (applies : RuleApplies)
  | actionAlreadyExists (base_state_hash : StateHashT) (new_state_hash : StateHashT)
  | conditionNotFound (base_state_hash : StateHashT)
  | actionNotFound (base_state_hash : StateHashT)
deriving DecidableEq

/-- `RuleCache::new`. -/
def RuleCache.new : RuleCache := ⟨[], []⟩

/-- `RuleCache::condition` (cache.rs lines 48-55); named `conditionLookup`
because the record field already carries the source name. -/
def RuleCache.conditionLookup (rc : RuleCache) (base : StateHashT) :
    Except RuleCacheError RuleApplies :=
  match rc.condition.lookup base with
  | some a => .ok a
  | none => .error (.conditionNotFound base)

/-- `RuleCache::action` (cache.rs lines 57-64). -/
def RuleCache.actionLookup (rc : RuleCache) (base : StateHashT) :
    Except RuleCacheError StateHashT :=
  match rc.actions.lookup base with
  | some v => .ok v
  | none => .error (.actionNotFound base)

/-- `RuleCache::add_condition` (cache.rs lines 66-84): no-op success on an
identical existing value, error on a differing one, insert otherwise. -/
def RuleCache.add_condition (rc : RuleCache) (base : StateHashT) (applies : RuleApplies) :
    Except RuleCacheError RuleCache :=
  if (rc.condition.lookup base).isSome then
    if rc.condition.lookup base = some applies then .ok rc
    else .error (.conditionAlreadyExists base applies)
  else .ok { rc with condition := rc.condition ++ [(base, applies)] }

/-- `RuleCache::add_action` (cache.rs lines 86-104). -/
def RuleCache.add_action (rc : RuleCache) (base : StateHashT) (new_hash : StateHashT) :
    Except RuleCacheError RuleCache :=
  if (rc.actions.lookup base).isSome then
    if rc.actions.lookup base = some new_hash then .ok rc
    else .error (.actionAlreadyExists base new_hash)
  else .ok { rc with actions := rc.actions ++ [(base, new_hash)] }

/-- `CacheError` (cache.rs lines 339-354); backtraces omitted,
`InternalError` wraps the rule-cache error. -/
inductive CacheError where
  | ruleAlreadyExists (rule_name : RuleName)
  | ruleNotFound (rule_name : RuleName)
  | internalError (source : RuleCacheError)
deriving DecidableEq

/-- `Cache` (cache.rs lines 141-144): rule name to rule cache, in
iteration order. -/
structure Cache where
  rules : List (RuleName × RuleCache)
deriving DecidableEq

/-- `Cache::new`. -/
def Cache.new : Cache := ⟨[]⟩

/-- `Cache::rule` (cache.rs lines 164-171). -/
def Cache.rule (c : Cache) (rn : RuleName) : Except CacheError RuleCache :=
  match c.rules.lookup rn with
  | some rc => .ok rc
  | none => .error (.ruleNotFound rn)

/-- The effect of writing back through `Cache::rule_mut` (cache.rs lines
173-180): replace the sub-cache stored under the rule name. -/
def Cache.setRule (c : Cache) (rn : RuleName) (rc : RuleCache) : Cache :=
  ⟨c.rules.map (fun e => if e.1 = rn then (e.1, rc) else e)⟩

/-- `Cache::add_rule` (cache.rs lines 182-191). -/
def Cache.add_rule (c : Cache) (rn : RuleName) : Except CacheError Cache :=
  if (c.rules.lookup rn).isSome then .error (.ruleAlreadyExists rn)
  else .ok ⟨c.rules ++ [(rn, RuleCache.new)]⟩

/-- `Cache::condition` (cache.rs lines 193-199): `?`-chain through the
rule lookup and the sub-cache lookup. -/
def Cache.condition (c : Cache) (rn : RuleName) (base : StateHashT) :
    Except CacheError RuleApplies :=
  match c.rule rn with
  | .error e => .error e
  | .ok rc =>
    match rc.conditionLookup base with
    | .error e => .error (.internalError e)
    | .ok a => .ok a

/-- `Cache::action` (cache.rs lines 225-231). -/
def Cache.action (c : Cache) (rn : RuleName) (base : StateHashT) :
    Except CacheError StateHashT :=
  match c.rule rn with
  | .error e => .error e
  | .ok rc =>
    match rc.actionLookup base with
    | .error e => .error (.internalError e)
    | .ok v => .ok v

/-- `Cache::contains_condition` (cache.rs lines 201-211): a missing rule
yields `false`; `Cache::rule` can fail only with `RuleNotFound`, so the
Rust error passthrough arm is unreachable and the result is a plain
boolean. -/
def Cache.contains_condition (c : Cache) (rn : RuleName) (base : StateHashT) : Bool :=
  match c.rules.lookup rn with
  | some rc => (rc.condition.lookup base).isSome
  | none => false

/-- `Cache::contains_action` (cache.rs lines 213-223). -/
def Cache.contains_action (c : Cache) (rn : RuleName) (base : StateHashT) : Bool :=
  match c.rules.lookup rn with
  | some rc => (rc.actions.lookup base).isSome
  | none => false

/-- `Cache::add_condition` (cache.rs lines 253-271): write through the
existing rule sub-cache; on `RuleNotFound`, `add_rule` inserts an empty
sub-cache and the write is retried against it (which always succeeds). -/
def Cache.add_condition (c : Cache) (rn : RuleName) (base : StateHashT)
    (applies : RuleApplies) : Except CacheError Cache :=
  match c.rules.lookup rn with
  | some rc =>
    match rc.add_condition base applies with
    | .ok rc' => .ok (c.setRule rn rc')
    | .error e => .error (.internalError e)
  | none =>
    match RuleCache.new.add_condition base applies with
    | .ok rc' => .ok ⟨c.rules ++ [(rn, rc')]⟩
    | .error e => .error (.internalError e)

/-- `Cache::add_action` (cache.rs lines 233-251). -/
def Cache.add_action (c : Cache) (rn : RuleName) (base : StateHashT)
    (new_hash : StateHashT) : Except CacheError Cache :=
  match c.rules.lookup rn with
  | some rc =>
    match rc.add_action base new_hash with
    | .ok rc' => .ok (c.setRule rn rc')
    | .error e => .error (.internalError e)
  | none =>
    match RuleCache.new.add_action base new_hash with
    | .ok rc' => .ok ⟨c.rules ++ [(rn, rc')]⟩
    | .error e => .error (.internalError e)

/-- The condition value the cache stores for (rule, base-hash), if any. -/
def Cache.condValue (c : Cache) (rn : RuleName) (base : StateHashT) : Option RuleApplies :=
  match c.rules.lookup rn with
  | some rc => rc.condition.lookup base
  | none => none

/-- The action successor the cache stores for (rule, base-hash), if any. -/
def Cache.actValue (c : Cache) (rn : RuleName) (base : StateHashT) : Option StateHashT :=
  match c.rules.lookup rn with
  | some rc => rc.actions.lookup base
  | none => none

/-- `Cache::merge`, inner loop over one rule's condition entries
(cache.rs lines 328-330). -/
def Cache.addConditions (c : Cache) (rn : RuleName) :
    List (StateHashT × RuleApplies) → Except CacheError Cache
  | [] => .ok c
  | e :: rest =>
    match c.add_condition rn e.1 e.2 with
    | .ok c' => c'.addConditions rn rest
    | .error err => .error err

/-- `Cache::merge`, inner loop over one rule's action entries
(cache.rs lines 331-333). -/
def Cache.addActions (c : Cache) (rn : RuleName) :
    List (StateHashT × StateHashT) → Except CacheError Cache
  | [] => .ok c
  | e :: rest =>
    match c.add_action rn e.1 e.2 with
    | .ok c' => c'.addActions rn rest
    | .error err => .error err

/-- `Cache::merge`, outer loop over the other cache's rules. -/
def Cache.mergeRules (c : Cache) : List (RuleName × RuleCache) → Except CacheError Cache
  | [] => .ok c
  | (rn, rc) :: rest =>
    match c.addConditions rn rc.condition with
    | .error e => .error e
    | .ok c1 =>
      match c1.addActions rn rc.actions with
      | .error e => .error e
      | .ok c2 => c2.mergeRules rest

/-- `Cache::merge` (cache.rs lines 326-336): fold every condition and
action entry of the other cache in with the write-once `add_*` calls. -/
def Cache.merge (c other : Cache) : Except CacheError Cache :=
  c.mergeRules other.rules

/-- Two caches agree when no shared (rule, base-hash) key carries two
different values, neither among conditions nor among actions. -/
def Cache.Agrees (a b : Cache) : Prop :=
  (∀ rn h v w, a.condValue rn h = some v → b.condValue rn h = some w → v = w) ∧
  (∀ rn h v w, a.actValue rn h = some v → b.actValue rn h = some w → v = w)

/-- `ErrorKind` (error module, not under src/): the error union `Cache::graph`
and `Rule::apply` produce.  Modelled from the spec's error taxonomy:
`NotFound` covers a missing pool state and a missing entity/parameter
during action application; cache errors pass through. -/
inductive ErrorKind where
  | cacheError (e : CacheError)
  | stateNotFound (state_hash : StateHashT)
  | entityNotFound (name : EntityName)
  | parameterNotFound (name : ResourceName)
deriving DecidableEq

/-- `Cache::graph`, inner loop (cache.rs lines 310-321): the edges
contributed by one base node, iterating the given rule entries; the
cached condition is consulted through `Cache::condition` (a miss is
propagated as an error by `?`), an applying rule's successor comes from
`Cache::action`, and a successor outside the pool is a `StateNotFound`
error. -/
def Cache.graphEdgesForBase (c : Cache) (nodes : List StateHashT) (base : StateHashT) :
    List (RuleName × RuleCache) → Except ErrorKind (List (StateHashT × StateHashT × RuleName))
  | [] => .ok []
  | (rn, _) :: rest =>
    match c.condition rn base with
    | .error e => .error (.cacheError e)
    | .ok applies =>
      if applies then
        match c.action rn base with
        | .error e => .error (.cacheError e)
        | .ok new_hash =>
          if nodes.contains new_hash then
            match c.graphEdgesForBase nodes base rest with
            | .ok es => .ok ((base, new_hash, rn) :: es)
            | .error e => .error e
          else .error (.stateNotFound new_hash)
      else c.graphEdgesForBase nodes base rest

/-- `Cache::graph`, outer loop over the base nodes (cache.rs lines 309-322). -/
def Cache.graphAllBases (c : Cache) (nodes : List StateHashT) :
    List StateHashT → Except ErrorKind (List (StateHashT × StateHashT × RuleName))
  | [] => .ok []
  | base :: rest =>
    match c.graphEdgesForBase nodes base c.rules with
    | .error e => .error e
    | .ok es =>
      match c.graphAllBases nodes rest with
      | .error e => .error e
      | .ok es' => .ok (es ++ es')

/-- `Cache::graph` (cache.rs lines 288-324): the nodes are the pool's
hashes, the edges are built per base node and rule.  petgraph node
indices are identified with the hashes they carry (the pool's keys are
distinct), so an edge is recorded as (base hash, successor hash, rule name). -/
def Cache.graph (c : Cache) (ps : PossibleStates) :
    Except ErrorKind (List StateHashT × List (StateHashT × StateHashT × RuleName)) :=
  let nodes := ps.map Prod.fst
  match c.graphAllBases nodes nodes with
  | .error e => .error e
  | .ok es => .ok (nodes, es)

/-! ## Rule (rules.rs) -/

/-- `ProbabilityWeight(f64)` (rules.rs lines 31-79), modelled as ℚ. -/
abbrev ProbabilityWeight := ℚ

/-- `Condition<T>` (rules.rs lines 23-29); `Function` carries
`fn(State<T>) -> RuleApplies`. -/
inductive Condition where
  | never
  | always
  | function (f : State → RuleApplies)

/-- `Action<T>` (rules.rs lines 14-21); parameter values are represented
by their 64-bit pattern (`Amount`), and `SetFunction`'s assignment map is
a list of (entity-name, parameter-name, value) in iteration order. -/
inductive Action where
  | none
  | setParameter (entity_name : EntityName) (parameter : ResourceName) (value : Amount)
  | setFunction (get_mutations : State → List (EntityName × ResourceName × Amount))
  | insertEntity (entity_name : EntityName) (entity : Entity)

/-- `Rule<T>` (rules.rs lines 81-87). -/
structure Rule where
  description : String
  condition : Condition
  weight : ProbabilityWeight
  action : Action

/-- `ConditionCacheUpdate` (cache.rs lines 365-370). -/
structure ConditionCacheUpdate where
  rule_name : RuleName
  base_state_hash : StateHashT
  applies : RuleApplies
deriving DecidableEq

/-- `ActionCacheUpdate` (cache.rs lines 393-398). -/
structure ActionCacheUpdate where
  rule_name : RuleName
  base_state_hash : StateHashT
  new_state_hash : StateHashT
deriving DecidableEq

/-- `Rule::applies` (rules.rs lines 135-157): weight 0 short-circuits to
(false, no update) before the state is hashed or the condition looked at;
otherwise a cached condition is returned with no update, and a cache miss
evaluates the condition and produces a `ConditionCacheUpdate`.
(`StateHash::new(&state)` of the newer generation is the hash of the
state, i.e. `StateHash.from_state`.) -/
def Rule.applies (r : Rule) (cache : Cache) (rule_name : RuleName) (state : State) :
    Except CacheError (RuleApplies × Option ConditionCacheUpdate) :=
  if r.weight = 0 then .ok (false, none)
  else
    let base_state_hash := StateHash.from_state state
    if cache.contains_condition rule_name base_state_hash then
      match cache.condition rule_name base_state_hash with
      | .error e => .error e
      | .ok a => .ok (a, none)
    else
      let rule_applies :=
        match r.condition with
        | .never => false
        | .always => true
        | .function condition => condition state
      .ok (rule_applies, some ⟨rule_name, base_state_hash, rule_applies⟩)

/-- Modelled from the spec: the newer-generation `State::set_parameter`
(its source file is not under src/) replaces the value at
(entity, parameter) and errors when the entity or the parameter is
absent (§4.3).  `Rule::apply`'s `SetParameter` arm reaches the same
effect through `entity_mut` / `parameter_mut`. -/
def State.set_parameter (s : State) (e : EntityName) (p : ResourceName) (v : Amount) :
    Except ErrorKind State :=
  match s.entities.lookup e with
  | none => .error (.entityNotFound e)
  | some ent =>
    match ent.resources.lookup p with
    | none => .error (.parameterNotFound p)
    | some _ =>
      .ok ⟨s.entities.map (fun ne =>
        if ne.1 = e then
          (ne.1, ⟨ne.2.resources.map (fun ra => if ra.1 = p then (ra.1, v) else ra)⟩)
        else ne)⟩

/-- Modelled from the spec: the newer-generation `State::insert_entity`
(not under src/) inserts or replaces the named entity wholesale (§4.3). -/
def State.insert_entity (s : State) (e : EntityName) (ent : Entity) : State :=
  if (s.entities.lookup e).isSome then
    ⟨s.entities.map (fun ne => if ne.1 = e then (ne.1, ent) else ne)⟩
  else ⟨s.entities ++ [(e, ent)]⟩

/-- The `SetFunction` arm of `Rule::apply` (rules.rs lines 185-191):
apply each assignment in turn via `set_parameter`, propagating errors. -/
def State.applyAssignments (s : State) :
    List (EntityName × ResourceName × Amount) → Except ErrorKind State
  | [] => .ok s
  | (e, p, v) :: rest =>
    match s.set_parameter e p v with
    | .error err => .error err
    | .ok s' => s'.applyAssignments rest

/-- `Rule::apply` (rules.rs lines 159-204): on a cached action entry the
successor state is looked up in the pool (the newer-generation
`PossibleStates::state` returns a `StateNotFound` error for a missing
hash) and no update is produced; on a miss the action is applied to the
base state and an `ActionCacheUpdate` carrying the new state's hash is
produced. -/
def Rule.apply (r : Rule) (cache : Cache) (possible_states : PossibleStates)
    (rule_name : RuleName) (base_state_hash : StateHashT) (base_state : State) :
    Except ErrorKind (State × Option ActionCacheUpdate) :=
  if cache.contains_action rule_name base_state_hash then
    match cache.action rule_name base_state_hash with
    | .error e => .error (.cacheError e)
    | .ok h' =>
      match possible_states.state h' with
      | none => .error (.stateNotFound h')
      | some s => .ok (s, none)
  else
    let newState :=
      match r.action with
      | .none => Except.ok base_state
      | .setParameter entity_name parameter value =>
        base_state.set_parameter entity_name parameter value
      | .setFunction get_mutations =>
        base_state.applyAssignments (get_mutations base_state)
      | .insertEntity entity_name entity =>
        Except.ok (base_state.insert_entity entity_name entity)
    match newState with
    | .error e => .error e
    | .ok new_state =>
      .ok (new_state, some ⟨rule_name, base_state_hash, StateHash.from_state new_state⟩)

/-! ## Concrete fixtures for the counterexamples and witnesses -/

/-- UTF-8 bytes of the entity name "A". -/
def entityA : EntityName := [0x41]

/-- UTF-8 bytes of the entity name "B". -/
def entityB : EntityName := [0x42]

/-- UTF-8 bytes of the resource name "R". -/
def resourceR : ResourceName := [0x52]

/-- A state holding {A: {R: 0}, B: {R: 0}}, iterated A first. -/
def stateAB : State := ⟨[(entityA, ⟨[(resourceR, 0)]⟩), (entityB, ⟨[(resourceR, 0)]⟩)]⟩

/-- The same unordered contents as `stateAB`, iterated B first. -/
def stateBA : State := ⟨[(entityB, ⟨[(resourceR, 0)]⟩), (entityA, ⟨[(resourceR, 0)]⟩)]⟩

/-- The empty state `State::new()`. -/
def emptyState : State := ⟨[]⟩

/-- Its fingerprint (`StateHash::new()`). -/
def emptyHash : StateHashT := StateHash.from_state emptyState

/-- Graph counterexample cache: one rule "r" with the single cached firing
0 → 0 (condition true at base hash 0, successor hash 0). -/
def graphExCache : Cache := ⟨[("r", ⟨[(0, true)], [(0, 0)]⟩)]⟩

/-- Graph counterexample pool: nodes 0 and 1. -/
def graphExPool : PossibleStates := [(0, emptyState), (1, emptyState)]

/-- A weight-0 rule whose predicate would return true. -/
def w0Rule : Rule := ⟨"weight zero", .function (fun _ => true), 0, .none⟩

/-- A rule of weight 1 with an `Always` condition. -/
def alwaysRule : Rule := ⟨"always", .always, 1, .none⟩

/-- A warm cache: rule "r" has a true condition entry and a self-loop
action entry at the empty state's hash. -/
def warmCache : Cache := ⟨[("r", ⟨[(emptyHash, true)], [(emptyHash, emptyHash)]⟩)]⟩

/-- A pool containing the empty state. -/
def emptyPool : PossibleStates := [(emptyHash, emptyState)]

/-! # Theorems

General association-list lemmas first, then one theorem per claim
(with its witness or counterexample). -/

section LookupLemmas

variable {α : Type} {β : Type} [BEq α] [LawfulBEq α]

theorem lookup_append_single_self (l : List (α × β)) (k : α) (v : β)
    (h : l.lookup k = none) : (l ++ [(k, v)]).lookup k = some v := by
  induction l with
  | nil => simp [List.lookup]
  | cons e rest ih =>
    obtain ⟨a, b⟩ := e
    by_cases hka : k = a
    · subst hka
      simp [List.lookup_cons] at h
    · simp only [List.cons_append, List.lookup_cons, beq_false_of_ne hka] at h ⊢
      exact ih h

theorem lookup_append_single_ne (l : List (α × β)) (k k' : α) (v : β)
    (h : k' ≠ k) : (l ++ [(k, v)]).lookup k' = l.lookup k' := by
  induction l with
  | nil => simp [List.lookup, beq_false_of_ne h]
  | cons e rest ih =>
    obtain ⟨a, b⟩ := e
    by_cases hka : k' = a
    · subst hka
      simp [List.lookup_cons]
    · simp only [List.cons_append, List.lookup_cons, beq_false_of_ne hka]
      exact ih

theorem mem_of_lookup_eq_some {l : List (α × β)} {k : α} {v : β}
    (h : l.lookup k = some v) : (k, v) ∈ l := by
  induction l with
  | nil => cases h
  | cons e rest ih =>
    obtain ⟨a, b⟩ := e
    by_cases hka : k = a
    · subst hka
      simp only [List.lookup_cons, beq_self_eq_true] at h
      obtain rfl : b = v := by cases h; rfl
      exact List.mem_cons_self _ _
    · simp only [List.lookup_cons, beq_false_of_ne hka] at h
      exact List.mem_cons_of_mem _ (ih h)

end LookupLemmas

section UpdateLemmas

variable {α : Type} {β : Type} [BEq α] [LawfulBEq α] [DecidableEq α]

theorem lookup_map_update_self (l : List (α × β)) (k : α) (f : β → β) :
    (l.map fun e => if e.1 = k then (e.1, f e.2) else e).lookup k = (l.lookup k).map f := by
  induction l with
  | nil => simp [List.lookup]
  | cons e rest ih =>
    obtain ⟨a, b⟩ := e
    by_cases hka : a = k
    · subst hka
      simp [List.lookup_cons]
    · simp only [List.map_cons, if_neg hka, List.lookup_cons,
        beq_false_of_ne (Ne.symm hka)]
      exact ih

theorem lookup_map_update_ne (l : List (α × β)) (k k' : α) (f : β → β)
    (h : k' ≠ k) :
    (l.map fun e => if e.1 = k then (e.1, f e.2) else e).lookup k' = l.lookup k' := by
  induction l with
  | nil => simp
  | cons e rest ih =>
    obtain ⟨a, b⟩ := e
    by_cases hka : a = k
    · subst hka
      simp only [List.map_cons, if_pos, List.lookup_cons, beq_false_of_ne h]
      exact ih
    · by_cases hka' : k' = a
      · subst hka'
        simp [List.lookup_cons, if_neg hka]
      · simp only [List.map_cons, if_neg hka, List.lookup_cons, beq_false_of_ne hka']
        exact ih

theorem keys_map_update (l : List (α × β)) (k : α) (f : β → β) :
    (l.map fun e => if e.1 = k then (e.1, f e.2) else e).map Prod.fst = l.map Prod.fst := by
  induction l with
  | nil => rfl
  | cons e rest ih =>
    obtain ⟨a, b⟩ := e
    by_cases hka : a = k <;> simp [hka, ih]

theorem lookup_of_mem_nodup {l : List (α × β)} (hnd : (l.map Prod.fst).Nodup)
    {e : α × β} (he : e ∈ l) : l.lookup e.1 = some e.2 := by
  induction l with
  | nil => cases he
  | cons x rest ih =>
    obtain ⟨a, b⟩ := x
    simp only [List.map_cons, List.nodup_cons] at hnd
    rcases List.mem_cons.mp he with rfl | hmem
    · simp [List.lookup_cons]
    · have hne : e.1 ≠ a := by
        intro hcontra
        exact hnd.1 (hcontra ▸ (List.mem_map_of_mem Prod.fst hmem))
      simp only [List.lookup_cons, beq_false_of_ne hne]
      exact ih hnd.2 hmem

theorem lookup_eq_none_of_not_mem_keys {l : List (α × β)} {k : α}
    (h : k ∉ l.map Prod.fst) : l.lookup k = none := by
  induction l with
  | nil => rfl
  | cons e rest ih =>
    obtain ⟨a, b⟩ := e
    simp only [List.map_cons, List.mem_cons] at h
    push_neg at h
    simp only [List.lookup_cons, beq_false_of_ne h.1]
    exact ih h.2

theorem keys_nodup_append_single {l : List (α × β)} {k : α} (v : β)
    (hnd : (l.map Prod.fst).Nodup) (h : l.lookup k = none) :
    ((l ++ [(k, v)]).map Prod.fst).Nodup := by
  have hk : k ∉ l.map Prod.fst := by
    intro hmem
    obtain ⟨e, hel, hek⟩ := List.mem_map.mp hmem
    have := lookup_of_mem_nodup hnd hel
    rw [hek] at this
    rw [this] at h
    cases h
  simp only [List.map_append, List.map_cons, List.map_nil]
  refine List.Nodup.append hnd (List.nodup_singleton k) ?_
  intro a ha hak
  simp only [List.mem_singleton] at hak
  exact hk (hak ▸ ha)

end UpdateLemmas

/-- C1: the spec claims `StateHash` is a deterministic pure function of
the state's unordered contents (two states equal as unordered nested
mappings produce the same `StateHash`).  The code hashes the triples in
the map's iteration order with `DefaultHasher` (SipHash-1-3), which is
order-sensitive: the same unordered contents {A: {R: 0}, B: {R: 0}},
iterated in the two possible orders, produce different fingerprints. -/
theorem state_hash_depends_on_iteration_order :
    stateAB.entities.Perm stateBA.entities ∧
    StateHash.from_state stateAB ≠ StateHash.from_state stateBA := by
  constructor
  · decide
  · decide

/-- C10: State equality is exactly fingerprint equality: `PartialEq for
State` compares the `DefaultHasher` finishes of the two sides, which are
the two `StateHash::from_state` fingerprints. -/
theorem state_eq_iff_fingerprint_eq (a b : State) :
    State.beq a b = true ↔ StateHash.from_state a = StateHash.from_state b := by
  simp [State.beq]

/-- C4: a rule of weight 0 never fires: `Rule::applies` returns
(false, no cache update) for every cache, state and condition — the
weight test precedes the cache lookup and the condition evaluation. -/
theorem weight_zero_rule_never_fires (r : Rule) (cache : Cache) (rule_name : RuleName)
    (state : State) (hw : r.weight = 0) :
    r.applies cache rule_name state = .ok (false, none) := by
  simp [Rule.applies, hw]

/-- Witness for C4: a concrete weight-0 rule whose predicate returns
true, against a cache that even holds a true condition entry for the
(rule, state) pair. -/
theorem weight_zero_rule_never_fires_witness :
    w0Rule.weight = 0 ∧
    w0Rule.applies warmCache "r" emptyState = .ok (false, none) :=
  ⟨by decide, weight_zero_rule_never_fires w0Rule warmCache "r" emptyState (by decide)⟩

/-- C8: `PossibleStates` insertion is append-only: inserting an absent
hash succeeds and stores the pair (other keys untouched); inserting a
present hash returns the `AlreadyExists` error before anything is
written, so the stored pair is unchanged. -/
theorem possible_states_append_only (ps : PossibleStates) (h : StateHashT) (s : State) :
    (ps.state h = none →
      ps.append_state h s = .ok (ps ++ [(h, s)]) ∧
      (ps ++ [(h, s)]).state h = some s ∧
      ∀ h', h' ≠ h → (ps ++ [(h, s)]).state h' = ps.state h') ∧
    (∀ s₀, ps.state h = some s₀ → ps.append_state h s = .error ⟨h, s⟩) := by
  constructor
  · intro hnone
    refine ⟨?_, ?_, ?_⟩
    · simp [PossibleStates.append_state, hnone]
    · exact lookup_append_single_self ps h s hnone
    · intro h' hne
      exact lookup_append_single_ne ps h h' s hne
  · intro s₀ hsome
    simp [PossibleStates.append_state, hsome]

/-- Witness for C8: re-inserting hash 0 into a pool already holding it
errors with `AlreadyExists(0, state)`. -/
theorem possible_states_append_only_witness :
    PossibleStates.append_state [(0, emptyState)] 0 emptyState = .error ⟨0, emptyState⟩ :=
  (possible_states_append_only [(0, emptyState)] 0 emptyState).2 emptyState (by decide)

/-- C2: `ReachableStates::append_state` accumulates `p` into the entry at
the hash (creating it when absent), errors exactly when the accumulated
mass at that hash would exceed 1, and never leaves any single entry
holding mass greater than 1.  `Probability` is modelled from the spec as
a rational in [0, 1] (units.rs is not under src/), so a fresh entry's
mass `p` cannot itself exceed 1. -/
theorem reachable_append_accumulates (rs : ReachableStates) (h : StateHashT) (p : Probability)
    (hkeys : (rs.map Prod.fst).Nodup) (hp0 : 0 ≤ p) (hp1 : p ≤ 1)
    (hvals : ∀ e ∈ rs, e.2 ≤ 1) :
    ((∃ err, rs.append_state h p = .error err) ↔ 1 < (rs.lookup h).getD 0 + p) ∧
    ∀ rs', rs.append_state h p = .ok rs' →
      (rs'.lookup h).getD 0 = (rs.lookup h).getD 0 + p ∧ ∀ e ∈ rs', e.2 ≤ 1 := by
  cases hq : rs.lookup h with
  | none =>
    constructor
    · constructor
      · rintro ⟨err, herr⟩
        simp [ReachableStates.append_state, hq] at herr
      · intro hlt
        simp only [hq, Option.getD_none, zero_add] at hlt
        exact absurd hp1 (not_le.mpr hlt)
    · intro rs' hok
      simp only [ReachableStates.append_state, hq] at hok
      obtain rfl : rs ++ [(h, p)] = rs' := by simpa using hok
      constructor
      · rw [lookup_append_single_self rs h p hq]
        simp
      · intro e he
        rcases List.mem_append.mp he with hmem | hmem
        · exact hvals e hmem
        · simp only [List.mem_singleton] at hmem
          subst hmem
          exact hp1
  | some q =>
    by_cases hlt : 1 < q + p
    · constructor
      · constructor
        · intro _
          simpa using hlt
        · intro _
          exact ⟨⟨q + p, 0, 1⟩, by simp [ReachableStates.append_state, hq, hlt]⟩
      · intro rs' hok
        simp [ReachableStates.append_state, hq, hlt] at hok
    · constructor
      · constructor
        · rintro ⟨err, herr⟩
          simp [ReachableStates.append_state, hq, hlt] at herr
        · intro hcon
          simp only [Option.getD_some] at hcon
          exact absurd hcon hlt
      · intro rs' hok
        simp only [ReachableStates.append_state, hq, if_neg hlt] at hok
        obtain rfl : (rs.map fun e => if e.1 = h then (e.1, e.2 + p) else e) = rs' := by
          simpa using hok
        constructor
        · rw [lookup_map_update_self rs h (fun x => x + p), hq]
          simp
        · intro e he
          obtain ⟨e₀, he₀, hupd⟩ := List.mem_map.mp he
          by_cases h₀ : e₀.1 = h
          · have hlq : rs.lookup e₀.1 = some e₀.2 := lookup_of_mem_nodup hkeys he₀
            rw [h₀, hq] at hlq
            obtain rfl : q = e₀.2 := by cases hlq; rfl
            rw [← hupd]
            simp only [if_pos h₀]
            exact not_lt.mp hlt
          · rw [← hupd]
            simp only [if_neg h₀]
            exact hvals e₀ he₀

/-- Witness for C2 at the distribution {0: 0} with an append of mass 1 at
hash 0: the call succeeds, the entry accumulates to 1 and no entry
exceeds 1. -/
theorem reachable_append_accumulates_witness :
    ((∃ err, ReachableStates.append_state [(0, 0)] 0 1 = .error err) ↔
      1 < (List.lookup (0 : StateHashT) [((0 : StateHashT), (0 : ℚ))]).getD 0 + 1) ∧
    ∀ rs', ReachableStates.append_state [(0, 0)] 0 1 = .ok rs' →
      (rs'.lookup (0 : StateHashT)).getD 0 =
        (List.lookup (0 : StateHashT) [((0 : StateHashT), (0 : ℚ))]).getD 0 + 1 ∧
      ∀ e ∈ rs', e.2 ≤ 1 :=
  reachable_append_accumulates [(0, 0)] 0 1 (by decide) (by decide) (by decide)
    (by decide)

/-- C9: `ReachableStates::entropy` is the Shannon entropy
`H = -Σ p·log₂ p` (entries of mass 0 contribute 0), and at the concrete
distributions {a: 1/2, b: 1/2} resp. {a: 1} it is exactly 1 resp. 0. -/
theorem entropy_is_shannon :
    (∀ rs : ReachableStates, (∀ e ∈ rs, 0 ≤ e.2) →
      rs.entropy = -((rs.map (fun e => (e.2 : ℝ) * Real.logb 2 (e.2 : ℝ))).sum)) ∧
    ReachableStates.entropy [(0, 1/2), (1, 1/2)] = 1 ∧
    ReachableStates.entropy [(0, 1)] = 0 := by
  have hgen : ∀ rs : ReachableStates, (∀ e ∈ rs, 0 ≤ e.2) →
      rs.entropy = -((rs.map (fun e => (e.2 : ℝ) * Real.logb 2 (e.2 : ℝ))).sum) := by
    intro rs hnn
    induction rs with
    | nil => simp [ReachableStates.entropy]
    | cons e rest ih =>
      have hrest := ih (fun x hx => hnn x (List.mem_cons_of_mem _ hx))
      have he : (0 : ℚ) ≤ e.2 := hnn e (List.mem_cons_self _ _)
      simp only [ReachableStates.entropy, List.map_cons, List.sum_cons] at hrest ⊢
      rcases lt_or_eq_of_le he with hpos | hzero
      · rw [if_pos hpos, hrest]
        ring
      · rw [if_neg (by rw [← hzero]; exact lt_irrefl 0), hrest, ← hzero]
        push_cast
        ring
  have hhalf : Real.logb 2 ((1/2 : ℚ) : ℝ) = -1 := by
    have : ((1/2 : ℚ) : ℝ) = (2 : ℝ)⁻¹ := by norm_num
    rw [this, Real.logb_inv, Real.logb_self_eq_one (by norm_num)]
  refine ⟨hgen, ?_, ?_⟩
  · rw [hgen [(0, 1/2), (1, 1/2)] (by simp)]
    simp [hhalf]
    norm_num
  · rw [hgen [(0, 1)] (by simp)]
    simp

/-- Witness for C9 at the singleton distribution {0: 1}. -/
theorem entropy_is_shannon_witness :
    ReachableStates.entropy [(0, 1)] =
      -((([((0 : StateHashT), (1 : ℚ))]).map
        (fun e => (e.2 : ℝ) * Real.logb 2 (e.2 : ℝ))).sum) :=
  entropy_is_shannon.1 [(0, 1)] (by decide)

/-- C5: warm-cache evaluation is idempotent and produces no updates: with
a nonzero weight and a cached condition entry for (rule, hash(state)),
`Rule::applies` returns exactly the cached value with no
`ConditionCacheUpdate`; with a cached action entry, `Rule::apply` returns
the successor state looked up in `PossibleStates` with no
`ActionCacheUpdate`. -/
theorem warm_cache_hits_no_updates :
    (∀ (r : Rule) (cache : Cache) (rule_name : RuleName) (state : State) (v : RuleApplies),
      r.weight ≠ 0 →
      cache.condValue rule_name (StateHash.from_state state) = some v →
      r.applies cache rule_name state = .ok (v, none)) ∧
    (∀ (r : Rule) (cache : Cache) (ps : PossibleStates) (rule_name : RuleName)
      (base_state_hash h' : StateHashT) (base_state s' : State),
      cache.actValue rule_name base_state_hash = some h' →
      ps.state h' = some s' →
      r.apply cache ps rule_name base_state_hash base_state = .ok (s', none)) := by
  constructor
  · intro r cache rule_name state v hw hv
    cases hrc : cache.rules.lookup rule_name with
    | none => simp [Cache.condValue, hrc] at hv
    | some rc =>
      have hv' : rc.condition.lookup (StateHash.from_state state) = some v := by
        simpa [Cache.condValue, hrc] using hv
      have hcont : cache.contains_condition rule_name (StateHash.from_state state) = true := by
        simp [Cache.contains_condition, hrc, hv']
      have hcv : cache.condition rule_name (StateHash.from_state state) = .ok v := by
        simp [Cache.condition, Cache.rule, RuleCache.conditionLookup, hrc, hv']
      unfold Rule.applies
      rw [if_neg hw]
      simp [hcont, hcv]
  · intro r cache ps rule_name base_state_hash h' base_state s' ha hs
    cases hrc : cache.rules.lookup rule_name with
    | none => simp [Cache.actValue, hrc] at ha
    | some rc =>
      have ha' : rc.actions.lookup base_state_hash = some h' := by
        simpa [Cache.actValue, hrc] using ha
      have hcont : cache.contains_action rule_name base_state_hash = true := by
        simp [Cache.contains_action, hrc, ha']
      have hav : cache.action rule_name base_state_hash = .ok h' := by
        simp [Cache.action, Cache.rule, RuleCache.actionLookup, hrc, ha']
      unfold Rule.apply
      simp [hcont, hav, hs]

/-- Witness for C5: the weight-1 always-rule against the warm cache
returns the cached condition value resp. the pooled successor state, with
no updates. -/
theorem warm_cache_hits_no_updates_witness :
    alwaysRule.applies warmCache "r" emptyState = .ok (true, none) ∧
    alwaysRule.apply warmCache emptyPool "r" emptyHash emptyState = .ok (emptyState, none) :=
  ⟨warm_cache_hits_no_updates.1 alwaysRule warmCache "r" emptyState true
      (by decide) (by decide),
   warm_cache_hits_no_updates.2 alwaysRule warmCache emptyPool "r" emptyHash emptyHash
      emptyState emptyState (by decide) (by decide)⟩

/-! ### Characterization of the write-once cache insertions -/

theorem setRule_keys (c : Cache) (rn : RuleName) (rc : RuleCache) :
    (c.setRule rn rc).rules.map Prod.fst = c.rules.map Prod.fst :=
  keys_map_update c.rules rn (fun _ => rc)

theorem setRule_lookup_self (c : Cache) (rn : RuleName) (rc : RuleCache) :
    (c.setRule rn rc).rules.lookup rn = (c.rules.lookup rn).map (fun _ => rc) :=
  lookup_map_update_self c.rules rn (fun _ => rc)

theorem setRule_lookup_ne (c : Cache) (rn rn' : RuleName) (rc : RuleCache)
    (h : rn' ≠ rn) : (c.setRule rn rc).rules.lookup rn' = c.rules.lookup rn' :=
  lookup_map_update_ne c.rules rn rn' (fun _ => rc) h

theorem map_update_id_of_not_mem {α β : Type} [DecidableEq α]
    {l : List (α × β)} {k : α} {v : β} (h : k ∉ l.map Prod.fst) :
    (l.map fun e => if e.1 = k then (e.1, v) else e) = l := by
  induction l with
  | nil => rfl
  | cons e rest ih =>
    simp only [List.map_cons, List.mem_cons] at h
    push_neg at h
    simp only [List.map_cons]
    rw [if_neg (fun hc => h.1 hc.symm), ih h.2]

theorem map_update_self_of_lookup {α β : Type} [BEq α] [LawfulBEq α] [DecidableEq α]
    {l : List (α × β)} {k : α} {v : β}
    (hnd : (l.map Prod.fst).Nodup) (hlk : l.lookup k = some v) :
    (l.map fun e => if e.1 = k then (e.1, v) else e) = l := by
  induction l with
  | nil => rfl
  | cons e rest ih =>
    obtain ⟨a, b⟩ := e
    simp only [List.map_cons, List.nodup_cons] at hnd
    by_cases hka : a = k
    · subst hka
      simp only [List.lookup_cons, beq_self_eq_true] at hlk
      obtain rfl : b = v := by cases hlk; rfl
      simp only [List.map_cons, ite_self]
      rw [map_update_id_of_not_mem hnd.1]
    · simp only [List.lookup_cons, beq_false_of_ne (fun hc => hka hc.symm)] at hlk
      simp only [List.map_cons, if_neg hka]
      rw [ih hnd.2 hlk]

theorem setRule_self (c : Cache) (rn : RuleName) (rc : RuleCache)
    (hnd : (c.rules.map Prod.fst).Nodup) (hrc : c.rules.lookup rn = some rc) :
    c.setRule rn rc = c := by
  unfold Cache.setRule
  conv_rhs => rw [show c = ⟨c.rules⟩ from rfl]
  congr 1
  exact map_update_self_of_lookup hnd hrc

theorem rc_add_condition_cases (rc : RuleCache) (h : StateHashT) (v : RuleApplies) :
    (rc.condition.lookup h = none ∧
      rc.add_condition h v = .ok ⟨rc.condition ++ [(h, v)], rc.actions⟩) ∨
    (rc.condition.lookup h = some v ∧ rc.add_condition h v = .ok rc) ∨
    (∃ w, rc.condition.lookup h = some w ∧ w ≠ v ∧
      rc.add_condition h v = .error (.conditionAlreadyExists h v)) := by
  unfold RuleCache.add_condition
  cases hl : rc.condition.lookup h with
  | none => exact Or.inl ⟨rfl, by simp [hl]⟩
  | some w =>
    by_cases hwv : w = v
    · subst hwv
      exact Or.inr (Or.inl ⟨rfl, by simp [hl]⟩)
    · refine Or.inr (Or.inr ⟨w, rfl, hwv, ?_⟩)
      simp [hl, hwv]

theorem rc_add_action_cases (rc : RuleCache) (h : StateHashT) (v : StateHashT) :
    (rc.actions.lookup h = none ∧
      rc.add_action h v = .ok ⟨rc.condition, rc.actions ++ [(h, v)]⟩) ∨
    (rc.actions.lookup h = some v ∧ rc.add_action h v = .ok rc) ∨
    (∃ w, rc.actions.lookup h = some w ∧ w ≠ v ∧
      rc.add_action h v = .error (.actionAlreadyExists h v)) := by
  unfold RuleCache.add_action
  cases hl : rc.actions.lookup h with
  | none => exact Or.inl ⟨rfl, by simp [hl]⟩
  | some w =>
    by_cases hwv : w = v
    · subst hwv
      exact Or.inr (Or.inl ⟨rfl, by simp [hl]⟩)
    · refine Or.inr (Or.inr ⟨w, rfl, hwv, ?_⟩)
      simp [hl, hwv]

theorem condValue_eq (c : Cache) (rn : RuleName) (h : StateHashT) (rc : RuleCache)
    (hrc : c.rules.lookup rn = some rc) : c.condValue rn h = rc.condition.lookup h := by
  simp [Cache.condValue, hrc]

theorem condValue_none (c : Cache) (rn : RuleName) (h : StateHashT)
    (hrc : c.rules.lookup rn = none) : c.condValue rn h = none := by
  simp [Cache.condValue, hrc]

theorem actValue_eq (c : Cache) (rn : RuleName) (h : StateHashT) (rc : RuleCache)
    (hrc : c.rules.lookup rn = some rc) : c.actValue rn h = rc.actions.lookup h := by
  simp [Cache.actValue, hrc]

theorem actValue_none (c : Cache) (rn : RuleName) (h : StateHashT)
    (hrc : c.rules.lookup rn = none) : c.actValue rn h = none := by
  simp [Cache.actValue, hrc]

theorem cache_add_condition_ok_frame (c : Cache) (rn : RuleName) (h : StateHashT)
    (v : RuleApplies) (c' : Cache)
    (hnd : (c.rules.map Prod.fst).Nodup)
    (hok : c.add_condition rn h v = .ok c') :
    (c'.rules.map Prod.fst).Nodup ∧
    c'.condValue rn h = some v ∧
    (∀ rn' h', rn' ≠ rn ∨ h' ≠ h → c'.condValue rn' h' = c.condValue rn' h') ∧
    (∀ rn' h', c'.actValue rn' h' = c.actValue rn' h') := by
  unfold Cache.add_condition at hok
  cases hrc : c.rules.lookup rn with
  | some rc =>
    simp only [hrc] at hok
    rcases rc_add_condition_cases rc h v with ⟨hl, he⟩ | ⟨hl, he⟩ | ⟨w, hl, hwv, he⟩
    · simp only [he] at hok
      injection hok with hok'
      subst hok'
      have hlk : (c.setRule rn ⟨rc.condition ++ [(h, v)], rc.actions⟩).rules.lookup rn =
          some ⟨rc.condition ++ [(h, v)], rc.actions⟩ := by
        rw [setRule_lookup_self, hrc]
        rfl
      refine ⟨?_, ?_, ?_, ?_⟩
      · rw [setRule_keys]
        exact hnd
      · rw [condValue_eq _ _ _ _ hlk]
        exact lookup_append_single_self _ _ _ hl
      · intro rn' h' hne
        by_cases hr : rn' = rn
        · subst hr
          rcases hne with hne | hne
          · exact absurd rfl hne
          · rw [condValue_eq _ _ _ _ hlk, condValue_eq _ _ _ _ hrc]
            exact lookup_append_single_ne _ _ _ _ hne
        · unfold Cache.condValue
          rw [setRule_lookup_ne _ _ _ _ hr]
      · intro rn' h'
        by_cases hr : rn' = rn
        · subst hr
          rw [actValue_eq _ _ _ _ hlk, actValue_eq _ _ _ _ hrc]
        · unfold Cache.actValue
          rw [setRule_lookup_ne _ _ _ _ hr]
    · simp only [he] at hok
      injection hok with hok'
      rw [setRule_self c rn rc hnd hrc] at hok'
      subst hok'
      exact ⟨hnd, by rw [condValue_eq _ _ _ _ hrc]; exact hl,
        fun _ _ _ => rfl, fun _ _ => rfl⟩
    · simp only [he] at hok
      cases hok
  | none =>
    simp only [hrc] at hok
    simp only [show RuleCache.new.add_condition h v = .ok ⟨[(h, v)], []⟩ from rfl] at hok
    injection hok with hok'
    subst hok'
    have hlk : (Cache.mk (c.rules ++ [(rn, ⟨[(h, v)], []⟩)])).rules.lookup rn =
        some ⟨[(h, v)], []⟩ := lookup_append_single_self _ _ _ hrc
    refine ⟨?_, ?_, ?_, ?_⟩
    · exact keys_nodup_append_single _ hnd hrc
    · rw [condValue_eq _ _ _ _ hlk]
      simp [List.lookup]
    · intro rn' h' hne
      by_cases hr : rn' = rn
      · subst hr
        rcases hne with hne | hne
        · exact absurd rfl hne
        · rw [condValue_eq _ _ _ _ hlk, condValue_none _ _ _ hrc]
          simp [List.lookup, beq_false_of_ne hne]
      · unfold Cache.condValue
        rw [lookup_append_single_ne _ _ _ _ hr]
    · intro rn' h'
      by_cases hr : rn' = rn
      · subst hr
        rw [actValue_eq _ _ _ _ hlk, actValue_none _ _ _ hrc]
        rfl
      · unfold Cache.actValue
        rw [lookup_append_single_ne _ _ _ _ hr]

theorem cache_add_action_ok_frame (c : Cache) (rn : RuleName) (h : StateHashT)
    (v : StateHashT) (c' : Cache)
    (hnd : (c.rules.map Prod.fst).Nodup)
    (hok : c.add_action rn h v = .ok c') :
    (c'.rules.map Prod.fst).Nodup ∧
    c'.actValue rn h = some v ∧
    (∀ rn' h', rn' ≠ rn ∨ h' ≠ h → c'.actValue rn' h' = c.actValue rn' h') ∧
    (∀ rn' h', c'.condValue rn' h' = c.condValue rn' h') := by
  unfold Cache.add_action at hok
  cases hrc : c.rules.lookup rn with
  | some rc =>
    simp only [hrc] at hok
    rcases rc_add_action_cases rc h v with ⟨hl, he⟩ | ⟨hl, he⟩ | ⟨w, hl, hwv, he⟩
    · simp only [he] at hok
      injection hok with hok'
      subst hok'
      have hlk : (c.setRule rn ⟨rc.condition, rc.actions ++ [(h, v)]⟩).rules.lookup rn =
          some ⟨rc.condition, rc.actions ++ [(h, v)]⟩ := by
        rw [setRule_lookup_self, hrc]
        rfl
      refine ⟨?_, ?_, ?_, ?_⟩
      · rw [setRule_keys]
        exact hnd
      · rw [actValue_eq _ _ _ _ hlk]
        exact lookup_append_single_self _ _ _ hl
      · intro rn' h' hne
        by_cases hr : rn' = rn
        · subst hr
          rcases hne with hne | hne
          · exact absurd rfl hne
          · rw [actValue_eq _ _ _ _ hlk, actValue_eq _ _ _ _ hrc]
            exact lookup_append_single_ne _ _ _ _ hne
        · unfold Cache.actValue
          rw [setRule_lookup_ne _ _ _ _ hr]
      · intro rn' h'
        by_cases hr : rn' = rn
        · subst hr
          rw [condValue_eq _ _ _ _ hlk, condValue_eq _ _ _ _ hrc]
        · unfold Cache.condValue
          rw [setRule_lookup_ne _ _ _ _ hr]
    · simp only [he] at hok
      injection hok with hok'
      rw [setRule_self c rn rc hnd hrc] at hok'
      subst hok'
      exact ⟨hnd, by rw [actValue_eq _ _ _ _ hrc]; exact hl,
        fun _ _ _ => rfl, fun _ _ => rfl⟩
    · simp only [he] at hok
      cases hok
  | none =>
    simp only [hrc] at hok
    simp only [show RuleCache.new.add_action h v = .ok ⟨[], [(h, v)]⟩ from rfl] at hok
    injection hok with hok'
    subst hok'
    have hlk : (Cache.mk (c.rules ++ [(rn, ⟨[], [(h, v)]⟩)])).rules.lookup rn =
        some ⟨[], [(h, v)]⟩ := lookup_append_single_self _ _ _ hrc
    refine ⟨?_, ?_, ?_, ?_⟩
    · exact keys_nodup_append_single _ hnd hrc
    · rw [actValue_eq _ _ _ _ hlk]
      simp [List.lookup]
    · intro rn' h' hne
      by_cases hr : rn' = rn
      · subst hr
        rcases hne with hne | hne
        · exact absurd rfl hne
        · rw [actValue_eq _ _ _ _ hlk, actValue_none _ _ _ hrc]
          simp [List.lookup, beq_false_of_ne hne]
      · unfold Cache.actValue
        rw [lookup_append_single_ne _ _ _ _ hr]
    · intro rn' h'
      by_cases hr : rn' = rn
      · subst hr
        rw [condValue_eq _ _ _ _ hlk, condValue_none _ _ _ hrc]
        rfl
      · unfold Cache.condValue
        rw [lookup_append_single_ne _ _ _ _ hr]

theorem cache_add_condition_ok_iff (c : Cache) (rn : RuleName) (h : StateHashT)
    (v : RuleApplies) :
    (∃ c', c.add_condition rn h v = .ok c') ↔
      (c.condValue rn h = none ∨ c.condValue rn h = some v) := by
  unfold Cache.add_condition
  cases hrc : c.rules.lookup rn with
  | some rc =>
    rcases rc_add_condition_cases rc h v with ⟨hl, he⟩ | ⟨hl, he⟩ | ⟨w, hl, hwv, he⟩
    · simp [he, hl, condValue_eq c rn h rc hrc]
    · simp [he, hl, condValue_eq c rn h rc hrc]
    · simp [he, hl, hwv, condValue_eq c rn h rc hrc]
  | none =>
    simp [condValue_none c rn h hrc,
      show RuleCache.new.add_condition h v = .ok ⟨[(h, v)], []⟩ from rfl]

theorem cache_add_action_ok_iff (c : Cache) (rn : RuleName) (h : StateHashT)
    (v : StateHashT) :
    (∃ c', c.add_action rn h v = .ok c') ↔
      (c.actValue rn h = none ∨ c.actValue rn h = some v) := by
  unfold Cache.add_action
  cases hrc : c.rules.lookup rn with
  | some rc =>
    rcases rc_add_action_cases rc h v with ⟨hl, he⟩ | ⟨hl, he⟩ | ⟨w, hl, hwv, he⟩
    · simp [he, hl, actValue_eq c rn h rc hrc]
    · simp [he, hl, actValue_eq c rn h rc hrc]
    · simp [he, hl, hwv, actValue_eq c rn h rc hrc]
  | none =>
    simp [actValue_none c rn h hrc,
      show RuleCache.new.add_action h v = .ok ⟨[], [(h, v)]⟩ from rfl]

theorem cache_add_condition_error_charac (c : Cache) (rn : RuleName) (h : StateHashT)
    (v : RuleApplies) (e : CacheError)
    (he : c.add_condition rn h v = .error e) :
    e = .internalError (.conditionAlreadyExists h v) ∧
    ∃ w, c.condValue rn h = some w ∧ w ≠ v := by
  unfold Cache.add_condition at he
  cases hrc : c.rules.lookup rn with
  | some rc =>
    simp only [hrc] at he
    rcases rc_add_condition_cases rc h v with ⟨hl, hcase⟩ | ⟨hl, hcase⟩ | ⟨w, hl, hwv, hcase⟩ <;>
      simp only [hcase] at he
    · cases he
    · cases he
    · injection he with he'
      exact ⟨he'.symm, w, by rw [condValue_eq _ _ _ _ hrc]; exact hl, hwv⟩
  | none =>
    simp only [hrc,
      show RuleCache.new.add_condition h v = .ok ⟨[(h, v)], []⟩ from rfl] at he
    cases he

theorem cache_add_action_error_charac (c : Cache) (rn : RuleName) (h : StateHashT)
    (v : StateHashT) (e : CacheError)
    (he : c.add_action rn h v = .error e) :
    e = .internalError (.actionAlreadyExists h v) ∧
    ∃ w, c.actValue rn h = some w ∧ w ≠ v := by
  unfold Cache.add_action at he
  cases hrc : c.rules.lookup rn with
  | some rc =>
    simp only [hrc] at he
    rcases rc_add_action_cases rc h v with ⟨hl, hcase⟩ | ⟨hl, hcase⟩ | ⟨w, hl, hwv, hcase⟩ <;>
      simp only [hcase] at he
    · cases he
    · cases he
    · injection he with he'
      exact ⟨he'.symm, w, by rw [actValue_eq _ _ _ _ hrc]; exact hl, hwv⟩
  | none =>
    simp only [hrc,
      show RuleCache.new.add_action h v = .ok ⟨[], [(h, v)]⟩ from rfl] at he
    cases he

/-- C3: cache condition and action entries are write-once: after a
successful `add_condition(r, h, v)`, re-adding the identical value is a
no-op success (the cache is unchanged), while adding any differing value
returns the already-exists error (and, the error carrying no new cache,
the stored value stays v); `add_action` behaves identically. -/
theorem cache_write_once :
    (∀ (c c' : Cache) (rn : RuleName) (h : StateHashT) (v : RuleApplies),
      (c.rules.map Prod.fst).Nodup →
      c.add_condition rn h v = .ok c' →
      c'.add_condition rn h v = .ok c' ∧
      ∀ v', v' ≠ v →
        c'.add_condition rn h v' = .error (.internalError (.conditionAlreadyExists h v'))) ∧
    (∀ (c c' : Cache) (rn : RuleName) (h : StateHashT) (v : StateHashT),
      (c.rules.map Prod.fst).Nodup →
      c.add_action rn h v = .ok c' →
      c'.add_action rn h v = .ok c' ∧
      ∀ v', v' ≠ v →
        c'.add_action rn h v' = .error (.internalError (.actionAlreadyExists h v'))) := by
  constructor
  · intro c c' rn h v hnd hok
    obtain ⟨hnd', hv, -, -⟩ := cache_add_condition_ok_frame c rn h v c' hnd hok
    cases hrc' : c'.rules.lookup rn with
    | none => rw [condValue_none _ _ _ hrc'] at hv; cases hv
    | some rc' =>
      rw [condValue_eq _ _ _ _ hrc'] at hv
      constructor
      · unfold Cache.add_condition
        simp only [hrc']
        rcases rc_add_condition_cases rc' h v with ⟨hl, he⟩ | ⟨hl, he⟩ | ⟨w, hl, hwv, he⟩
        · rw [hl] at hv; cases hv
        · simp only [he]
          rw [setRule_self c' rn rc' hnd' hrc']
        · rw [hl] at hv
          injection hv with hv'
          exact absurd hv' hwv
      · intro v' hne
        unfold Cache.add_condition
        simp only [hrc']
        rcases rc_add_condition_cases rc' h v' with ⟨hl, he⟩ | ⟨hl, he⟩ | ⟨w, hl, hwv, he⟩
        · rw [hl] at hv; cases hv
        · rw [hl] at hv
          injection hv with hv'
          exact absurd hv' hne
        · simp only [he]
  · intro c c' rn h v hnd hok
    obtain ⟨hnd', hv, -, -⟩ := cache_add_action_ok_frame c rn h v c' hnd hok
    cases hrc' : c'.rules.lookup rn with
    | none => rw [actValue_none _ _ _ hrc'] at hv; cases hv
    | some rc' =>
      rw [actValue_eq _ _ _ _ hrc'] at hv
      constructor
      · unfold Cache.add_action
        simp only [hrc']
        rcases rc_add_action_cases rc' h v with ⟨hl, he⟩ | ⟨hl, he⟩ | ⟨w, hl, hwv, he⟩
        · rw [hl] at hv; cases hv
        · simp only [he]
          rw [setRule_self c' rn rc' hnd' hrc']
        · rw [hl] at hv
          injection hv with hv'
          exact absurd hv' hwv
      · intro v' hne
        unfold Cache.add_action
        simp only [hrc']
        rcases rc_add_action_cases rc' h v' with ⟨hl, he⟩ | ⟨hl, he⟩ | ⟨w, hl, hwv, he⟩
        · rw [hl] at hv; cases hv
        · rw [hl] at hv
          injection hv with hv'
          exact absurd hv' hne
        · simp only [he]

/-- Witness for C3: after writing condition true at (rule "r", hash 5),
re-writing true is a no-op success and writing false is the
already-exists error; likewise for an action entry 5 → 7 re-written as
5 → 7 resp. 5 → 8. -/
theorem cache_write_once_witness :
    (Cache.mk [("r", ⟨[(5, true)], []⟩)]).add_condition "r" 5 true =
      .ok (Cache.mk [("r", ⟨[(5, true)], []⟩)]) ∧
    (Cache.mk [("r", ⟨[(5, true)], []⟩)]).add_condition "r" 5 false =
      .error (.internalError (.conditionAlreadyExists 5 false)) ∧
    (Cache.mk [("r", ⟨[], [(5, 7)]⟩)]).add_action "r" 5 7 =
      .ok (Cache.mk [("r", ⟨[], [(5, 7)]⟩)]) ∧
    (Cache.mk [("r", ⟨[], [(5, 7)]⟩)]).add_action "r" 5 8 =
      .error (.internalError (.actionAlreadyExists 5 8)) := by
  have hc := cache_write_once.1 Cache.new (Cache.mk [("r", ⟨[(5, true)], []⟩)]) "r" 5 true
    (by decide) (by rfl)
  have ha := cache_write_once.2 Cache.new (Cache.mk [("r", ⟨[], [(5, 7)]⟩)]) "r" 5 7
    (by decide) (by rfl)
  exact ⟨hc.1, hc.2 false (by decide), ha.1, ha.2 8 (by decide)⟩

/-! ### Merge folds every entry under the write-once rule -/

theorem addConditions_spec (rn : RuleName) (entries : List (StateHashT × RuleApplies)) :
    ∀ c : Cache, (c.rules.map Prod.fst).Nodup → (entries.map Prod.fst).Nodup →
    (((∃ c', c.addConditions rn entries = .ok c') ↔
        ∀ p ∈ entries, c.condValue rn p.1 = none ∨ c.condValue rn p.1 = some p.2) ∧
      (∀ c', c.addConditions rn entries = .ok c' →
        (c'.rules.map Prod.fst).Nodup ∧
        (∀ rn' h', (rn' = rn → h' ∉ entries.map Prod.fst) →
          c'.condValue rn' h' = c.condValue rn' h') ∧
        (∀ rn' h', c'.actValue rn' h' = c.actValue rn' h')) ∧
      (∀ e, c.addConditions rn entries = .error e →
        ∃ h v, e = .internalError (.conditionAlreadyExists h v))) := by
  induction entries with
  | nil =>
    intro c hnd hent
    refine ⟨by simp [Cache.addConditions], ?_, ?_⟩
    · intro c' hok
      simp only [Cache.addConditions] at hok
      injection hok with hok'
      subst hok'
      exact ⟨hnd, fun _ _ _ => rfl, fun _ _ => rfl⟩
    · intro e he
      simp [Cache.addConditions] at he
  | cons p rest ih =>
    intro c hnd hent
    obtain ⟨hp, hrest⟩ : p.1 ∉ rest.map Prod.fst ∧ (rest.map Prod.fst).Nodup := by
      simpa using hent
    cases hadd : c.add_condition rn p.1 p.2 with
    | ok c1 =>
      obtain ⟨hnd1, hv1, hframe1, hact1⟩ :=
        cache_add_condition_ok_frame c rn p.1 p.2 c1 hnd hadd
      obtain ⟨ih_iff, ih_frame, ih_err⟩ := ih c1 hnd1 hrest
      have hstep : c.addConditions rn (p :: rest) = c1.addConditions rn rest := by
        simp [Cache.addConditions, hadd]
      have hsame : ∀ q ∈ rest, c1.condValue rn q.1 = c.condValue rn q.1 := by
        intro q hq
        apply hframe1
        right
        intro hq1
        exact hp (hq1 ▸ List.mem_map_of_mem Prod.fst hq)
      refine ⟨?_, ?_, ?_⟩
      · rw [hstep]
        constructor
        · intro hex q hq
          rcases List.mem_cons.mp hq with rfl | hq'
          · exact (cache_add_condition_ok_iff c rn q.1 q.2).mp ⟨c1, hadd⟩
          · rw [← hsame q hq']
            exact ih_iff.mp hex q hq'
        · intro hall
          apply ih_iff.mpr
          intro q hq
          rw [hsame q hq]
          exact hall q (List.mem_cons_of_mem _ hq)
      · intro c' hok'
        rw [hstep] at hok'
        obtain ⟨hnd', hfr', hact'⟩ := ih_frame c' hok'
        refine ⟨hnd', ?_, ?_⟩
        · intro rn' h' hcond
          by_cases hr : rn' = rn
          · subst hr
            have hmem := hcond rfl
            simp only [List.map_cons, List.mem_cons] at hmem
            push_neg at hmem
            rw [hfr' rn' h' (fun _ => hmem.2), hframe1 rn' h' (Or.inr hmem.1)]
          · rw [hfr' rn' h' (fun hc => absurd hc hr), hframe1 rn' h' (Or.inl hr)]
        · intro rn' h'
          rw [hact' rn' h', hact1 rn' h']
      · intro e he
        rw [hstep] at he
        exact ih_err e he
    | error err =>
      have hstep : c.addConditions rn (p :: rest) = .error err := by
        simp [Cache.addConditions, hadd]
      obtain ⟨heq, w, hw, hwne⟩ := cache_add_condition_error_charac c rn p.1 p.2 err hadd
      refine ⟨?_, ?_, ?_⟩
      · rw [hstep]
        constructor
        · rintro ⟨c', hc'⟩
          cases hc'
        · intro hall
          rcases hall p (List.mem_cons_self _ _) with hnone | hsome
          · rw [hw] at hnone
            cases hnone
          · rw [hw] at hsome
            injection hsome with hsome'
            exact absurd hsome' hwne
      · intro c' hok'
        rw [hstep] at hok'
        cases hok'
      · intro e he
        rw [hstep] at he
        injection he with he'
        subst he'
        exact ⟨p.1, p.2, heq⟩

theorem addActions_spec (rn : RuleName) (entries : List (StateHashT × StateHashT)) :
    ∀ c : Cache, (c.rules.map Prod.fst).Nodup → (entries.map Prod.fst).Nodup →
    (((∃ c', c.addActions rn entries = .ok c') ↔
        ∀ p ∈ entries, c.actValue rn p.1 = none ∨ c.actValue rn p.1 = some p.2) ∧
      (∀ c', c.addActions rn entries = .ok c' →
        (c'.rules.map Prod.fst).Nodup ∧
        (∀ rn' h', (rn' = rn → h' ∉ entries.map Prod.fst) →
          c'.actValue rn' h' = c.actValue rn' h') ∧
        (∀ rn' h', c'.condValue rn' h' = c.condValue rn' h')) ∧
      (∀ e, c.addActions rn entries = .error e →
        ∃ h v, e = .internalError (.actionAlreadyExists h v))) := by
  induction entries with
  | nil =>
    intro c hnd hent
    refine ⟨by simp [Cache.addActions], ?_, ?_⟩
    · intro c' hok
      simp only [Cache.addActions] at hok
      injection hok with hok'
      subst hok'
      exact ⟨hnd, fun _ _ _ => rfl, fun _ _ => rfl⟩
    · intro e he
      simp [Cache.addActions] at he
  | cons p rest ih =>
    intro c hnd hent
    obtain ⟨hp, hrest⟩ : p.1 ∉ rest.map Prod.fst ∧ (rest.map Prod.fst).Nodup := by
      simpa using hent
    cases hadd : c.add_action rn p.1 p.2 with
    | ok c1 =>
      obtain ⟨hnd1, hv1, hframe1, hcond1⟩ :=
        cache_add_action_ok_frame c rn p.1 p.2 c1 hnd hadd
      obtain ⟨ih_iff, ih_frame, ih_err⟩ := ih c1 hnd1 hrest
      have hstep : c.addActions rn (p :: rest) = c1.addActions rn rest := by
        simp [Cache.addActions, hadd]
      have hsame : ∀ q ∈ rest, c1.actValue rn q.1 = c.actValue rn q.1 := by
        intro q hq
        apply hframe1
        right
        intro hq1
        exact hp (hq1 ▸ List.mem_map_of_mem Prod.fst hq)
      refine ⟨?_, ?_, ?_⟩
      · rw [hstep]
        constructor
        · intro hex q hq
          rcases List.mem_cons.mp hq with rfl | hq'
          · exact (cache_add_action_ok_iff c rn q.1 q.2).mp ⟨c1, hadd⟩
          · rw [← hsame q hq']
            exact ih_iff.mp hex q hq'
        · intro hall
          apply ih_iff.mpr
          intro q hq
          rw [hsame q hq]
          exact hall q (List.mem_cons_of_mem _ hq)
      · intro c' hok'
        rw [hstep] at hok'
        obtain ⟨hnd', hfr', hcond'⟩ := ih_frame c' hok'
        refine ⟨hnd', ?_, ?_⟩
        · intro rn' h' hcond
          by_cases hr : rn' = rn
          · subst hr
            have hmem := hcond rfl
            simp only [List.map_cons, List.mem_cons] at hmem
            push_neg at hmem
            rw [hfr' rn' h' (fun _ => hmem.2), hframe1 rn' h' (Or.inr hmem.1)]
          · rw [hfr' rn' h' (fun hc => absurd hc hr), hframe1 rn' h' (Or.inl hr)]
        · intro rn' h'
          rw [hcond' rn' h', hcond1 rn' h']
      · intro e he
        rw [hstep] at he
        exact ih_err e he
    | error err =>
      have hstep : c.addActions rn (p :: rest) = .error err := by
        simp [Cache.addActions, hadd]
      obtain ⟨heq, w, hw, hwne⟩ := cache_add_action_error_charac c rn p.1 p.2 err hadd
      refine ⟨?_, ?_, ?_⟩
      · rw [hstep]
        constructor
        · rintro ⟨c', hc'⟩
          cases hc'
        · intro hall
          rcases hall p (List.mem_cons_self _ _) with hnone | hsome
          · rw [hw] at hnone
            cases hnone
          · rw [hw] at hsome
            injection hsome with hsome'
            exact absurd hsome' hwne
      · intro c' hok'
        rw [hstep] at hok'
        cases hok'
      · intro e he
        rw [hstep] at he
        injection he with he'
        subst he'
        exact ⟨p.1, p.2, heq⟩

theorem mergeRules_spec (rules : List (RuleName × RuleCache)) :
    ∀ c : Cache, (c.rules.map Prod.fst).Nodup →
    (rules.map Prod.fst).Nodup →
    (∀ e ∈ rules, (e.2.condition.map Prod.fst).Nodup ∧ (e.2.actions.map Prod.fst).Nodup) →
    (((∃ c', c.mergeRules rules = .ok c') ↔
        ∀ e ∈ rules,
          (∀ p ∈ e.2.condition,
            c.condValue e.1 p.1 = none ∨ c.condValue e.1 p.1 = some p.2) ∧
          (∀ p ∈ e.2.actions,
            c.actValue e.1 p.1 = none ∨ c.actValue e.1 p.1 = some p.2)) ∧
      (∀ e, c.mergeRules rules = .error e →
        (∃ h v, e = .internalError (.conditionAlreadyExists h v)) ∨
        (∃ h v, e = .internalError (.actionAlreadyExists h v)))) := by
  induction rules with
  | nil =>
    intro c hnd hkeys hinner
    refine ⟨by simp [Cache.mergeRules], ?_⟩
    intro e he
    simp [Cache.mergeRules] at he
  | cons r rest ih =>
    intro c hnd hkeys hinner
    obtain ⟨rn, rc⟩ := r
    obtain ⟨hr, hkrest⟩ : rn ∉ rest.map Prod.fst ∧ (rest.map Prod.fst).Nodup := by
      simpa using hkeys
    obtain ⟨hcnd, hand⟩ := hinner (rn, rc) (List.mem_cons_self _ _)
    obtain ⟨hC_iff, hC_frame, hC_err⟩ := addConditions_spec rn rc.condition c hnd hcnd
    cases haddc : c.addConditions rn rc.condition with
    | error err =>
      have hstep : c.mergeRules ((rn, rc) :: rest) = .error err := by
        simp [Cache.mergeRules, haddc]
      refine ⟨?_, ?_⟩
      · rw [hstep]
        constructor
        · rintro ⟨c', hc'⟩
          cases hc'
        · intro hall
          have := hC_iff.mpr ((hall (rn, rc) (List.mem_cons_self _ _)).1)
          obtain ⟨c', hc'⟩ := this
          rw [haddc] at hc'
          cases hc'
      · intro e he
        rw [hstep] at he
        injection he with he'
        subst he'
        exact Or.inl (hC_err err haddc)
    | ok c1 =>
      obtain ⟨hnd1, hCfr, hCact⟩ := hC_frame c1 haddc
      obtain ⟨hA_iff, hA_frame, hA_err⟩ := addActions_spec rn rc.actions c1 hnd1 hand
      cases hadda : c1.addActions rn rc.actions with
      | error err =>
        have hstep : c.mergeRules ((rn, rc) :: rest) = .error err := by
          simp [Cache.mergeRules, haddc, hadda]
        refine ⟨?_, ?_⟩
        · rw [hstep]
          constructor
          · rintro ⟨c', hc'⟩
            cases hc'
          · intro hall
            have hact_clause : ∀ p ∈ rc.actions,
                c1.actValue rn p.1 = none ∨ c1.actValue rn p.1 = some p.2 := by
              intro p hp
              rw [hCact rn p.1]
              exact (hall (rn, rc) (List.mem_cons_self _ _)).2 p hp
            obtain ⟨c', hc'⟩ := hA_iff.mpr hact_clause
            rw [hadda] at hc'
            cases hc'
        · intro e he
          rw [hstep] at he
          injection he with he'
          subst he'
          exact Or.inr (hA_err err hadda)
      | ok c2 =>
        obtain ⟨hnd2, hAfr, hAcond⟩ := hA_frame c2 hadda
        obtain ⟨ih_iff, ih_err⟩ := ih c2 hnd2 hkrest
          (fun e he => hinner e (List.mem_cons_of_mem _ he))
        have hstep : c.mergeRules ((rn, rc) :: rest) = c2.mergeRules rest := by
          simp [Cache.mergeRules, haddc, hadda]
        have hsameC : ∀ e ∈ rest, ∀ h', c2.condValue e.1 h' = c.condValue e.1 h' := by
          intro e he h'
          have hne : e.1 ≠ rn := by
            intro hc
            exact hr (hc ▸ List.mem_map_of_mem Prod.fst he)
          rw [hAcond e.1 h', hCfr e.1 h' (fun hc => absurd hc hne)]
        have hsameA : ∀ e ∈ rest, ∀ h', c2.actValue e.1 h' = c.actValue e.1 h' := by
          intro e he h'
          have hne : e.1 ≠ rn := by
            intro hc
            exact hr (hc ▸ List.mem_map_of_mem Prod.fst he)
          rw [hAfr e.1 h' (fun hc => absurd hc hne), hCact e.1 h']
        refine ⟨?_, ?_⟩
        · rw [hstep]
          constructor
          · intro hex e he
            rcases List.mem_cons.mp he with rfl | he'
            · constructor
              · exact hC_iff.mp ⟨c1, haddc⟩
              · intro p hp
                have hthis := hA_iff.mp ⟨c2, hadda⟩ p hp
                rw [hCact rn p.1] at hthis
                exact hthis
            · have hthis := ih_iff.mp hex e he'
              constructor
              · intro p hp
                rw [← hsameC e he' p.1]
                exact hthis.1 p hp
              · intro p hp
                rw [← hsameA e he' p.1]
                exact hthis.2 p hp
          · intro hall
            apply ih_iff.mpr
            intro e he
            constructor
            · intro p hp
              rw [hsameC e he p.1]
              exact (hall e (List.mem_cons_of_mem _ he)).1 p hp
            · intro p hp
              rw [hsameA e he p.1]
              exact (hall e (List.mem_cons_of_mem _ he)).2 p hp
        · intro e he
          rw [hstep] at he
          exact ih_err e he

/-- C7: `Cache::merge` folds every entry of the other cache under the
write-once rule: it succeeds exactly when the two caches hold no
differing values for any shared (rule, base-hash) key, among conditions
and actions alike, and every failure is an already-exists error. -/
theorem cache_merge_write_once (c1 c2 : Cache)
    (hnd1 : (c1.rules.map Prod.fst).Nodup)
    (hnd2 : (c2.rules.map Prod.fst).Nodup)
    (hinner : ∀ e ∈ c2.rules,
      (e.2.condition.map Prod.fst).Nodup ∧ (e.2.actions.map Prod.fst).Nodup) :
    ((∃ c', c1.merge c2 = .ok c') ↔ c1.Agrees c2) ∧
    (∀ e, c1.merge c2 = .error e →
      (∃ h v, e = .internalError (.conditionAlreadyExists h v)) ∨
      (∃ h v, e = .internalError (.actionAlreadyExists h v))) := by
  obtain ⟨hm_iff, hm_err⟩ := mergeRules_spec c2.rules c1 hnd1 hnd2 hinner
  constructor
  · rw [show c1.merge c2 = c1.mergeRules c2.rules from rfl, hm_iff]
    constructor
    · intro hall
      constructor
      · intro rn h v w hv hw
        cases hrc : c2.rules.lookup rn with
        | none => rw [condValue_none _ _ _ hrc] at hw; cases hw
        | some rc =>
          rw [condValue_eq _ _ _ _ hrc] at hw
          have hmem := mem_of_lookup_eq_some hrc
          have hpmem := mem_of_lookup_eq_some hw
          rcases (hall (rn, rc) hmem).1 (h, w) hpmem with hnone | hsome
          · rw [hv] at hnone
            cases hnone
          · rw [hv] at hsome
            injection hsome
      · intro rn h v w hv hw
        cases hrc : c2.rules.lookup rn with
        | none => rw [actValue_none _ _ _ hrc] at hw; cases hw
        | some rc =>
          rw [actValue_eq _ _ _ _ hrc] at hw
          have hmem := mem_of_lookup_eq_some hrc
          have hpmem := mem_of_lookup_eq_some hw
          rcases (hall (rn, rc) hmem).2 (h, w) hpmem with hnone | hsome
          · rw [hv] at hnone
            cases hnone
          · rw [hv] at hsome
            injection hsome
    · intro hagree e he
      constructor
      · intro p hp
        have hrc : c2.rules.lookup e.1 = some e.2 := lookup_of_mem_nodup hnd2 he
        have hpl : e.2.condition.lookup p.1 = some p.2 :=
          lookup_of_mem_nodup (hinner e he).1 hp
        have hc2 : c2.condValue e.1 p.1 = some p.2 := by
          rw [condValue_eq _ _ _ _ hrc]
          exact hpl
        cases hcv : c1.condValue e.1 p.1 with
        | none => exact Or.inl rfl
        | some v =>
          right
          rw [hagree.1 e.1 p.1 v p.2 hcv hc2]
      · intro p hp
        have hrc : c2.rules.lookup e.1 = some e.2 := lookup_of_mem_nodup hnd2 he
        have hpl : e.2.actions.lookup p.1 = some p.2 :=
          lookup_of_mem_nodup (hinner e he).2 hp
        have hc2 : c2.actValue e.1 p.1 = some p.2 := by
          rw [actValue_eq _ _ _ _ hrc]
          exact hpl
        cases hcv : c1.actValue e.1 p.1 with
        | none => exact Or.inl rfl
        | some v =>
          right
          rw [hagree.2 e.1 p.1 v p.2 hcv hc2]
  · intro e he
    exact hm_err e he

/-- Witness for C7: merging two caches that both assert condition true at
(rule "r", hash 0) succeeds (so by the theorem they agree), and the
conflicting merge — one asserts true, the other false — produces exactly
an already-exists error, here checked through the theorem's error
classification. -/
theorem cache_merge_write_once_witness :
    Cache.Agrees (Cache.mk [("r", ⟨[(0, true)], []⟩)]) (Cache.mk [("r", ⟨[(0, true)], []⟩)]) ∧
    ((∃ h v, (CacheError.internalError (.conditionAlreadyExists 0 false)) =
        .internalError (.conditionAlreadyExists h v)) ∨
      (∃ h v, (CacheError.internalError (.conditionAlreadyExists 0 false)) =
        .internalError (.actionAlreadyExists h v))) :=
  ⟨(cache_merge_write_once (Cache.mk [("r", ⟨[(0, true)], []⟩)])
      (Cache.mk [("r", ⟨[(0, true)], []⟩)]) (by decide) (by decide) (by decide)).1.mp
      ⟨Cache.mk [("r", ⟨[(0, true)], []⟩)], by rfl⟩,
    (cache_merge_write_once (Cache.mk [("r", ⟨[(0, true)], []⟩)])
      (Cache.mk [("r", ⟨[(0, false)], []⟩)]) (by decide) (by decide) (by decide)).2
      (CacheError.internalError (.conditionAlreadyExists 0 false)) (by rfl)⟩

/-! ### Cache::graph -/

/-- C6's counterexample: `graphExCache` holds exactly one action entry,
0 → 0, whose successor 0 is a node of `graphExPool`, so by the claim the
call should succeed; instead `Cache::graph` returns a condition-not-found
error, because the loop consults the cached condition of rule "r" for
pool node 1 as well and `?`-propagates the miss. -/
theorem graph_errors_despite_successors_present :
    graphExCache = Cache.mk [("r", ⟨[(0, true)], [(0, 0)]⟩)] ∧
    graphExPool.map Prod.fst = [0, 1] ∧
    graphExCache.graph graphExPool =
      .error (.cacheError (.internalError (.conditionNotFound 1))) :=
  ⟨rfl, rfl, rfl⟩

theorem graphEdgesForBase_spec (c : Cache) (nodes : List StateHashT) (base : StateHashT)
    (rules : List (RuleName × RuleCache))
    (hsub : ∀ e ∈ rules, c.rules.lookup e.1 = some e.2)
    (hcond : ∀ e ∈ rules, (e.2.condition.lookup base).isSome)
    (hact : ∀ e ∈ rules, e.2.condition.lookup base = some true →
      (e.2.actions.lookup base).isSome) :
    ((∃ es, c.graphEdgesForBase nodes base rules = .ok es) ↔
      ∀ e ∈ rules, ∀ v, e.2.condition.lookup base = some true →
        e.2.actions.lookup base = some v → v ∈ nodes) ∧
    (∀ es, c.graphEdgesForBase nodes base rules = .ok es →
      ∀ u v rn, (u, v, rn) ∈ es ↔
        (u = base ∧ ∃ rc, (rn, rc) ∈ rules ∧ rc.condition.lookup base = some true ∧
          rc.actions.lookup base = some v)) := by
  induction rules with
  | nil =>
    refine ⟨by simp [Cache.graphEdgesForBase], ?_⟩
    intro es hok
    simp only [Cache.graphEdgesForBase] at hok
    injection hok with hok'
    subst hok'
    simp
  | cons r rest ih =>
    obtain ⟨rn₀, rc₀⟩ := r
    have hc₀ : c.rules.lookup rn₀ = some rc₀ := hsub _ (List.mem_cons_self _ _)
    obtain ⟨a₀, ha₀⟩ := Option.isSome_iff_exists.mp (hcond _ (List.mem_cons_self _ _))
    have hcondeval : c.condition rn₀ base = .ok a₀ := by
      simp [Cache.condition, Cache.rule, RuleCache.conditionLookup, hc₀, ha₀]
    obtain ⟨ih_iff, ih_mem⟩ := ih (fun e he => hsub e (List.mem_cons_of_mem _ he))
      (fun e he => hcond e (List.mem_cons_of_mem _ he))
      (fun e he ht => hact e (List.mem_cons_of_mem _ he) ht)
    cases a₀ with
    | false =>
      have hstep : c.graphEdgesForBase nodes base ((rn₀, rc₀) :: rest) =
          c.graphEdgesForBase nodes base rest := by
        simp [Cache.graphEdgesForBase, hcondeval]
      refine ⟨?_, ?_⟩
      · rw [hstep]
        constructor
        · intro hex e he v htrue hactv
          rcases List.mem_cons.mp he with rfl | he'
          · rw [ha₀] at htrue
            cases htrue
          · exact ih_iff.mp hex e he' v htrue hactv
        · intro hall
          exact ih_iff.mpr (fun e he v ht hav =>
            hall e (List.mem_cons_of_mem _ he) v ht hav)
      · intro es hok
        rw [hstep] at hok
        intro u v rn
        rw [ih_mem es hok u v rn]
        constructor
        · rintro ⟨rfl, rc, hmem, ht, hv⟩
          exact ⟨rfl, rc, List.mem_cons_of_mem _ hmem, ht, hv⟩
        · rintro ⟨rfl, rc, hmem, ht, hv⟩
          rcases List.mem_cons.mp hmem with heq | hmem'
          · simp only [Prod.mk.injEq] at heq
            obtain ⟨rfl, rfl⟩ := heq
            rw [ha₀] at ht
            cases ht
          · exact ⟨rfl, rc, hmem', ht, hv⟩
    | true =>
      have htrue : rc₀.condition.lookup base = some true := ha₀
      obtain ⟨v₀, hv₀⟩ :=
        Option.isSome_iff_exists.mp (hact _ (List.mem_cons_self _ _) htrue)
      have hacteval : c.action rn₀ base = .ok v₀ := by
        simp [Cache.action, Cache.rule, RuleCache.actionLookup, hc₀, hv₀]
      by_cases hin : nodes.contains v₀ = true
      · have hmem₀ : v₀ ∈ nodes := List.elem_iff.mp hin
        cases hrec : c.graphEdgesForBase nodes base rest with
        | error err =>
          have hstep : c.graphEdgesForBase nodes base ((rn₀, rc₀) :: rest) =
              .error err := by
            simp [Cache.graphEdgesForBase, hcondeval, hacteval, hin, hmem₀, hrec]
          refine ⟨?_, ?_⟩
          · rw [hstep]
            constructor
            · rintro ⟨es, hes⟩
              cases hes
            · intro hall
              obtain ⟨es, hes⟩ := ih_iff.mpr (fun e he v ht hav =>
                hall e (List.mem_cons_of_mem _ he) v ht hav)
              rw [hrec] at hes
              cases hes
          · intro es hok
            rw [hstep] at hok
            cases hok
        | ok es' =>
          have hstep : c.graphEdgesForBase nodes base ((rn₀, rc₀) :: rest) =
              .ok ((base, v₀, rn₀) :: es') := by
            simp [Cache.graphEdgesForBase, hcondeval, hacteval, hin, hmem₀, hrec]
          refine ⟨?_, ?_⟩
          · rw [hstep]
            constructor
            · intro _ e he v ht hav
              rcases List.mem_cons.mp he with rfl | he'
              · rw [hv₀] at hav
                injection hav with hav'
                subst hav'
                exact List.elem_iff.mp hin
              · exact ih_iff.mp ⟨es', hrec⟩ e he' v ht hav
            · intro _
              exact ⟨(base, v₀, rn₀) :: es', rfl⟩
          · intro es hok
            rw [hstep] at hok
            injection hok with hok'
            subst hok'
            intro u v rn
            constructor
            · intro hm
              rcases List.mem_cons.mp hm with heq | hm'
              · simp only [Prod.mk.injEq] at heq
                obtain ⟨rfl, rfl, rfl⟩ := heq
                exact ⟨rfl, rc₀, List.mem_cons_self _ _, htrue, hv₀⟩
              · obtain ⟨hu, rc, hmem, ht, hv⟩ := (ih_mem es' hrec u v rn).mp hm'
                exact ⟨hu, rc, List.mem_cons_of_mem _ hmem, ht, hv⟩
            · rintro ⟨rfl, rc, hmem, ht, hv⟩
              rcases List.mem_cons.mp hmem with heq | hmem'
              · simp only [Prod.mk.injEq] at heq
                obtain ⟨rfl, rfl⟩ := heq
                rw [hv₀] at hv
                injection hv with hv'
                subst hv'
                exact List.mem_cons_self _ _
              · exact List.mem_cons_of_mem _
                  ((ih_mem es' hrec u v rn).mpr ⟨rfl, rc, hmem', ht, hv⟩)
      · have hmem₀ : v₀ ∉ nodes := fun hm => hin (List.elem_iff.mpr hm)
        have hstep : c.graphEdgesForBase nodes base ((rn₀, rc₀) :: rest) =
            .error (.stateNotFound v₀) := by
          simp [Cache.graphEdgesForBase, hcondeval, hacteval, hmem₀]
        refine ⟨?_, ?_⟩
        · rw [hstep]
          constructor
          · rintro ⟨es, hes⟩
            cases hes
          · intro hall
            exact absurd
              (List.elem_iff.mpr (hall (rn₀, rc₀) (List.mem_cons_self _ _) v₀ htrue hv₀))
              hin
        · intro es hok
          rw [hstep] at hok
          cases hok


theorem graphAllBases_spec (c : Cache) (nodes : List StateHashT)
    (hnd : (c.rules.map Prod.fst).Nodup)
    (hcond : ∀ e ∈ c.rules, ∀ h ∈ nodes, (e.2.condition.lookup h).isSome)
    (hact : ∀ e ∈ c.rules, ∀ h ∈ nodes, e.2.condition.lookup h = some true →
      (e.2.actions.lookup h).isSome) :
    ∀ bases, (∀ b ∈ bases, b ∈ nodes) →
    (((∃ es, c.graphAllBases nodes bases = .ok es) ↔
        ∀ e ∈ c.rules, ∀ b ∈ bases, ∀ v, e.2.condition.lookup b = some true →
          e.2.actions.lookup b = some v → v ∈ nodes) ∧
      (∀ es, c.graphAllBases nodes bases = .ok es →
        ∀ u v rn, (u, v, rn) ∈ es ↔
          (u ∈ bases ∧ ∃ rc, (rn, rc) ∈ c.rules ∧ rc.condition.lookup u = some true ∧
            rc.actions.lookup u = some v))) := by
  intro bases
  induction bases with
  | nil =>
    intro _
    refine ⟨by simp [Cache.graphAllBases], ?_⟩
    intro es hok
    simp only [Cache.graphAllBases] at hok
    injection hok with hok'
    subst hok'
    simp
  | cons b rest ih =>
    intro hbs
    have hbn : b ∈ nodes := hbs b (List.mem_cons_self _ _)
    obtain ⟨hb_iff, hb_mem⟩ := graphEdgesForBase_spec c nodes b c.rules
      (fun e he => lookup_of_mem_nodup hnd he) (fun e he => hcond e he b hbn)
      (fun e he ht => hact e he b hbn ht)
    obtain ⟨ih_iff, ih_mem⟩ := ih (fun x hx => hbs x (List.mem_cons_of_mem _ hx))
    cases hhead : c.graphEdgesForBase nodes b c.rules with
    | error err =>
      have hstep : c.graphAllBases nodes (b :: rest) = .error err := by
        simp [Cache.graphAllBases, hhead]
      refine ⟨?_, ?_⟩
      · rw [hstep]
        constructor
        · rintro ⟨es, hes⟩
          cases hes
        · intro hall
          obtain ⟨es, hes⟩ := hb_iff.mpr (fun e he v ht hav =>
            hall e he b (List.mem_cons_self _ _) v ht hav)
          rw [hhead] at hes
          cases hes
      · intro es hok
        rw [hstep] at hok
        cases hok
    | ok esb =>
      cases hrest : c.graphAllBases nodes rest with
      | error err =>
        have hstep : c.graphAllBases nodes (b :: rest) = .error err := by
          simp [Cache.graphAllBases, hhead, hrest]
        refine ⟨?_, ?_⟩
        · rw [hstep]
          constructor
          · rintro ⟨es, hes⟩
            cases hes
          · intro hall
            obtain ⟨es, hes⟩ := ih_iff.mpr (fun e he x hx v ht hav =>
              hall e he x (List.mem_cons_of_mem _ hx) v ht hav)
            rw [hrest] at hes
            cases hes
        · intro es hok
          rw [hstep] at hok
          cases hok
      | ok esr =>
        have hstep : c.graphAllBases nodes (b :: rest) = .ok (esb ++ esr) := by
          simp [Cache.graphAllBases, hhead, hrest]
        refine ⟨?_, ?_⟩
        · rw [hstep]
          constructor
          · intro _ e he x hx v ht hav
            rcases List.mem_cons.mp hx with rfl | hx'
            · exact hb_iff.mp ⟨esb, hhead⟩ e he v ht hav
            · exact ih_iff.mp ⟨esr, hrest⟩ e he x hx' v ht hav
          · intro _
            exact ⟨esb ++ esr, rfl⟩
        · intro es hok u v rn
          rw [hstep] at hok
          injection hok with hok'
          subst hok'
          rw [List.mem_append, hb_mem esb hhead u v rn, ih_mem esr hrest u v rn]
          constructor
          · rintro (⟨rfl, hrest'⟩ | ⟨hu, hrest'⟩)
            · exact ⟨List.mem_cons_self _ _, hrest'⟩
            · exact ⟨List.mem_cons_of_mem _ hu, hrest'⟩
          · rintro ⟨hu, hrest'⟩
            rcases List.mem_cons.mp hu with rfl | hu'
            · exact Or.inl ⟨rfl, hrest'⟩
            · exact Or.inr ⟨hu', hrest'⟩

/-- C6 (amended): when every rule in the cache holds a cached condition
entry for every pool node, and an action entry wherever the condition is
cached true, `Cache::graph(possible_states)` succeeds exactly when every
cached successor is itself a pool node — in particular it errors when an
action entry's successor hash is absent from `possible_states` — and on
success the nodes are exactly the pool's hashes and the edges are exactly
the cached firings: (u, v, r) is an edge iff u is a pool node with
condition(r, u) cached true and action(r, u) = v (v then being a pool
node, since the call succeeded). -/
theorem graph_spec (c : Cache) (ps : PossibleStates)
    (hnd : (c.rules.map Prod.fst).Nodup)
    (hcond : ∀ e ∈ c.rules, ∀ h ∈ ps.map Prod.fst, (e.2.condition.lookup h).isSome)
    (hact : ∀ e ∈ c.rules, ∀ h ∈ ps.map Prod.fst, e.2.condition.lookup h = some true →
      (e.2.actions.lookup h).isSome) :
    ((∃ g, c.graph ps = .ok g) ↔
      ∀ rn h v, h ∈ ps.map Prod.fst → c.condValue rn h = some true →
        c.actValue rn h = some v → v ∈ ps.map Prod.fst) ∧
    (∀ nodes edges, c.graph ps = .ok (nodes, edges) →
      nodes = ps.map Prod.fst ∧
      ∀ u v rn, (u, v, rn) ∈ edges ↔
        (u ∈ ps.map Prod.fst ∧ c.condValue rn u = some true ∧
          c.actValue rn u = some v)) := by
  obtain ⟨hg_iff, hg_mem⟩ := graphAllBases_spec c (ps.map Prod.fst) hnd hcond hact
    (ps.map Prod.fst) (fun b hb => hb)
  constructor
  · constructor
    · rintro ⟨g, hg⟩
      simp only [Cache.graph] at hg
      cases hab : c.graphAllBases (ps.map Prod.fst) (ps.map Prod.fst) with
      | error err =>
        rw [hab] at hg
        cases hg
      | ok es =>
        intro rn h v hh hcv hav
        cases hrc : c.rules.lookup rn with
        | none =>
          rw [condValue_none _ _ _ hrc] at hcv
          cases hcv
        | some rc =>
          rw [condValue_eq _ _ _ _ hrc] at hcv
          rw [actValue_eq _ _ _ _ hrc] at hav
          exact hg_iff.mp ⟨es, hab⟩ (rn, rc) (mem_of_lookup_eq_some hrc) h hh v hcv hav
    · intro hall
      have hok : ∃ es, c.graphAllBases (ps.map Prod.fst) (ps.map Prod.fst) = .ok es := by
        apply hg_iff.mpr
        intro e he b hb v ht hav
        apply hall e.1 b v hb
        · rw [condValue_eq _ _ _ _ (lookup_of_mem_nodup hnd he)]
          exact ht
        · rw [actValue_eq _ _ _ _ (lookup_of_mem_nodup hnd he)]
          exact hav
      obtain ⟨es, hes⟩ := hok
      exact ⟨(ps.map Prod.fst, es), by simp [Cache.graph, hes]⟩
  · intro nodes edges hok
    simp only [Cache.graph] at hok
    cases hab : c.graphAllBases (ps.map Prod.fst) (ps.map Prod.fst) with
    | error err =>
      rw [hab] at hok
      cases hok
    | ok es =>
      rw [hab] at hok
      injection hok with hok'
      obtain ⟨rfl, rfl⟩ : ps.map Prod.fst = nodes ∧ es = edges := by
        simpa [Prod.ext_iff] using hok'
      refine ⟨rfl, ?_⟩
      intro u v rn
      rw [hg_mem es hab u v rn]
      constructor
      · rintro ⟨hu, rc, hmem, ht, hv⟩
        refine ⟨hu, ?_, ?_⟩
        · rw [condValue_eq _ _ _ _ (lookup_of_mem_nodup hnd hmem)]
          exact ht
        · rw [actValue_eq _ _ _ _ (lookup_of_mem_nodup hnd hmem)]
          exact hv
      · rintro ⟨hu, hcv, hav⟩
        cases hrc : c.rules.lookup rn with
        | none =>
          rw [condValue_none _ _ _ hrc] at hcv
          cases hcv
        | some rc =>
          rw [condValue_eq _ _ _ _ hrc] at hcv
          rw [actValue_eq _ _ _ _ hrc] at hav
          exact ⟨hu, rc, mem_of_lookup_eq_some hrc, hcv, hav⟩

/-- Witness for C6's amended theorem: the single-rule cache with the
cached firing 0 → 0 over the single-node pool {0} produces exactly the
node list [0] and the self-loop edge (0, 0, "r"). -/
theorem graph_spec_witness :
    [(0 : StateHashT)] = [(0, emptyState)].map Prod.fst ∧
    ∀ u v rn, (u, v, rn) ∈ [((0 : StateHashT), (0 : StateHashT), "r")] ↔
      (u ∈ ([((0 : StateHashT), emptyState)].map Prod.fst) ∧
        (Cache.mk [("r", ⟨[(0, true)], [(0, 0)]⟩)]).condValue rn u = some true ∧
        (Cache.mk [("r", ⟨[(0, true)], [(0, 0)]⟩)]).actValue rn u = some v) :=
  (graph_spec (Cache.mk [("r", ⟨[(0, true)], [(0, 0)]⟩)]) [(0, emptyState)]
    (by decide) (by decide) (by decide)).2 [0] [(0, 0, "r")] (by rfl)

end Entromatica
